import Mathlib

/-!
Shallow embedding of the interview-evaluation core of the repository
(`src/services/evaluation_service.py`, `src/services/emotion_service.py`,
`src/services/mock_agent_service.py`) together with theorems settling the
frozen claims about it.

Python strings are modelled as `List Char` (`PyStr`); the texts handled by
this code use only `' '`, `'\t'` and `'\n'` as whitespace, and the model of
`str.strip` / `str.splitlines` / `re.split(r"\s+", ·)` is faithful on that
alphabet.  Python floats are modelled as exact rationals (`ℚ`) where the code
is closed-form arithmetic, and as reals (`ℝ`) where the code uses `math.exp`
and the real power `**`.  `round(x, n)` is modelled as rounding the exact
value half-to-even.
-/

namespace InterviewEval

/-- Clamp a value to the interval `[0, 10]`; models `max(0.0, min(10.0, x))`
(`_clamp_0_10` in `evaluation_service.py`). -/
def clamp10 {α : Type} [LinearOrderedField α] (x : α) : α := max 0 (min 10 x)

/-- Round to the nearest integer with ties to even; model of Python `round(x)`
on the exact value of `x`. -/
def rheInt {α : Type} [LinearOrderedField α] [FloorRing α] (x : α) : ℤ :=
  if x - ⌊x⌋ < 1/2 then ⌊x⌋
  else if 1/2 < x - ⌊x⌋ then ⌊x⌋ + 1
  else if 2 ∣ ⌊x⌋ then ⌊x⌋ else ⌊x⌋ + 1

/-- Model of Python `round(x, 2)`. -/
def round2 {α : Type} [LinearOrderedField α] [FloorRing α] (x : α) : α :=
  (rheInt (100 * x) : α) / 100

section RoundLemmas

variable {α : Type} [LinearOrderedField α] [FloorRing α]

theorem rheInt_ge_floor (x : α) : ⌊x⌋ ≤ rheInt x := by
  unfold rheInt
  split
  · exact le_refl _
  · split
    · exact Int.le_add_one (le_refl _)
    · split
      · exact le_refl _
      · exact Int.le_add_one (le_refl _)

theorem rheInt_le_floor_add_one (x : α) : rheInt x ≤ ⌊x⌋ + 1 := by
  unfold rheInt
  split
  · exact Int.le_add_one (le_refl _)
  · split
    · exact le_refl _
    · split
      · exact Int.le_add_one (le_refl _)
      · exact le_refl _

theorem rheInt_intCast (n : ℤ) : rheInt (n : α) = n := by
  unfold rheInt
  rw [Int.floor_intCast]
  simp

theorem rheInt_eq_floor_of_lt {x : α} (h : x - ⌊x⌋ < 1/2) : rheInt x = ⌊x⌋ := by
  unfold rheInt; rw [if_pos h]

theorem rheInt_eq_add_one_of_gt {x : α} (h : 1/2 < x - ⌊x⌋) : rheInt x = ⌊x⌋ + 1 := by
  unfold rheInt
  rw [if_neg (by linarith), if_pos h]

theorem rheInt_of_tie {x : α} (h : x - ⌊x⌋ = 1/2) :
    rheInt x = if 2 ∣ ⌊x⌋ then ⌊x⌋ else ⌊x⌋ + 1 := by
  unfold rheInt
  rw [if_neg (by linarith), if_neg (by linarith)]

theorem rheInt_mono {x y : α} (h : x ≤ y) : rheInt x ≤ rheInt y := by
  rcases lt_or_le ⌊x⌋ ⌊y⌋ with hf | hf
  · calc rheInt x ≤ ⌊x⌋ + 1 := rheInt_le_floor_add_one x
      _ ≤ ⌊y⌋ := hf
      _ ≤ rheInt y := rheInt_ge_floor y
  · have hfe : ⌊x⌋ = ⌊y⌋ := le_antisymm (Int.floor_le_floor h) hf
    have hfr : x - (⌊x⌋ : α) ≤ y - (⌊y⌋ : α) := by
      rw [hfe]
      have : ((⌊y⌋ : ℤ) : α) ≤ ((⌊y⌋ : ℤ) : α) := le_refl _
      linarith
    by_cases hx1 : x - ⌊x⌋ < 1/2
    · rw [rheInt_eq_floor_of_lt hx1, hfe]
      exact rheInt_ge_floor y
    · by_cases hx2 : 1/2 < x - ⌊x⌋
      · have hy2 : 1/2 < y - (⌊y⌋ : α) := lt_of_lt_of_le hx2 hfr
        rw [rheInt_eq_add_one_of_gt hx2, rheInt_eq_add_one_of_gt hy2, hfe]
      · have hxe : x - (⌊x⌋ : α) = 1/2 := le_antisymm (not_lt.mp hx2) (not_lt.mp hx1)
        by_cases hy2 : 1/2 < y - (⌊y⌋ : α)
        · rw [rheInt_eq_add_one_of_gt hy2, ← hfe]
          exact rheInt_le_floor_add_one x
        · have hye : y - (⌊y⌋ : α) = 1/2 := by
            have : 1/2 ≤ y - (⌊y⌋ : α) := hxe ▸ hfr
            exact le_antisymm (not_lt.mp hy2) this
          rw [rheInt_of_tie hxe, rheInt_of_tie hye, hfe]

theorem rheInt_le_of_le_intCast {x : α} {m : ℤ} (h : x ≤ (m : α)) : rheInt x ≤ m := by
  calc rheInt x ≤ rheInt (m : α) := rheInt_mono h
    _ = m := rheInt_intCast m

theorem le_rheInt_of_intCast_le {x : α} {m : ℤ} (h : (m : α) ≤ x) : m ≤ rheInt x := by
  calc m = rheInt (m : α) := (rheInt_intCast m).symm
    _ ≤ rheInt x := rheInt_mono h

theorem round2_mono {x y : α} (h : x ≤ y) : round2 x ≤ round2 y := by
  unfold round2
  have := rheInt_mono (α := α) (x := 100 * x) (y := 100 * y) (by linarith)
  have h2 : ((rheInt (100 * x) : ℤ) : α) ≤ ((rheInt (100 * y) : ℤ) : α) := by
    exact_mod_cast this
  linarith

theorem round2_nonneg {x : α} (h : 0 ≤ x) : 0 ≤ round2 x := by
  unfold round2
  have : (0 : ℤ) ≤ rheInt (100 * x) :=
    le_rheInt_of_intCast_le (by push_cast; linarith)
  have h2 : (0 : α) ≤ ((rheInt (100 * x) : ℤ) : α) := by exact_mod_cast this
  linarith

theorem round2_le_ten {x : α} (h : x ≤ 10) : round2 x ≤ 10 := by
  unfold round2
  have : rheInt (100 * x) ≤ (1000 : ℤ) :=
    rheInt_le_of_le_intCast (by push_cast; linarith)
  have h2 : ((rheInt (100 * x) : ℤ) : α) ≤ ((1000 : ℤ) : α) := by exact_mod_cast this
  push_cast at h2
  linarith

theorem round2_intCast_div_100 (m : ℤ) : round2 ((m : α) / 100) = (m : α) / 100 := by
  unfold round2
  have : (100 : α) * ((m : α) / 100) = (m : α) := by ring
  rw [this, rheInt_intCast]

/-- A value strictly within `1/200` below an integer rounds (to two decimals)
to exactly that integer. -/
theorem round2_eq_intCast_of_close {x : α} {m : ℤ} (h1 : (m : α) - 1/200 < x)
    (h2 : x ≤ (m : α)) : round2 x = (m : α) := by
  unfold round2
  rcases eq_or_lt_of_le h2 with he | hlt
  · rw [he, show ((100 : α) * m) = ((100 * m : ℤ) : α) by push_cast; ring, rheInt_intCast]
    push_cast
    field_simp
  · have hfl : ⌊100 * x⌋ = 100 * m - 1 := by
      apply Int.floor_eq_iff.mpr
      constructor
      · push_cast; linarith
      · push_cast; linarith
    unfold rheInt
    rw [hfl]
    have hfr : ¬(100 * x - ((100 * m - 1 : ℤ) : α) < 1/2) := by
      push_neg; push_cast; linarith
    have hfr2 : (1/2 : α) < 100 * x - ((100 * m - 1 : ℤ) : α) := by
      push_cast; linarith
    rw [if_neg hfr, if_pos hfr2]
    push_cast
    field_simp

end RoundLemmas

section ClampLemmas

variable {α : Type} [LinearOrderedField α]

theorem clamp10_nonneg (x : α) : 0 ≤ clamp10 x := le_max_left 0 _

theorem clamp10_le_ten (x : α) : clamp10 x ≤ 10 := by
  unfold clamp10
  rcases le_total (0 : α) (min 10 x) with h | h
  · rw [max_eq_right h]; exact min_le_left _ _
  · rw [max_eq_left h]; norm_num

theorem clamp10_mono {x y : α} (h : x ≤ y) : clamp10 x ≤ clamp10 y :=
  max_le_max (le_refl 0) (min_le_min (le_refl 10) h)

theorem clamp10_of_mem {x : α} (h0 : 0 ≤ x) (h10 : x ≤ 10) : clamp10 x = x := by
  unfold clamp10
  rw [min_eq_right h10, max_eq_right h0]

theorem clamp10_of_ge_ten {x : α} (h : 10 ≤ x) : clamp10 x = 10 := by
  unfold clamp10
  rw [min_eq_left h, max_eq_right (by norm_num : (0:α) ≤ 10)]

end ClampLemmas

/-! ### Python string model -/

/-- Python strings are modelled as lists of characters. -/
abbrev PyStr := List Char

/-- Coerce a Lean string literal to the model. -/
def pys (s : String) : PyStr := s.data

/-- The newline character. -/
def NL : Char := '\n'

/-- Python whitespace as it occurs in the texts handled by this code
(space, tab, newline, carriage return); models Python `str.strip` / `\s` on
that alphabet.  Individual lines produced by `splitlines` never contain
`'\n'` or `'\r'`, so this also serves as the class `[ \t]` there. -/
def isPySpace (c : Char) : Bool := c = ' ' || c = '\t' || c = '\n' || c = '\r'

/-- Model of Python `str.lstrip()`. -/
def lstripPy (l : PyStr) : PyStr := l.dropWhile isPySpace

/-- Model of Python `str.rstrip()`. -/
def rstripPy (l : PyStr) : PyStr := (l.reverse.dropWhile isPySpace).reverse

/-- Model of Python `str.strip()`. -/
def stripPy (l : PyStr) : PyStr := rstripPy (lstripPy l)

/-- Model of Python `str.lower()` (ASCII inputs). -/
def lowerPy (l : PyStr) : PyStr := l.map Char.toLower

/-- Split at every newline, keeping all (possibly empty) parts; the result is
never empty. -/
def splitNL : PyStr → List PyStr
  | [] => [[]]
  | c :: cs =>
    if c = NL then [] :: splitNL cs
    else
      match splitNL cs with
      | [] => [[c]]
      | l :: ls => (c :: l) :: ls

/-- Model of Python `str.splitlines()` for strings whose only line break
character is `'\n'`: like splitting at newlines, but the empty string yields
no lines and a trailing newline yields no trailing empty line. -/
def pySplitlines (s : PyStr) : List PyStr :=
  if s = [] then []
  else if s.getLast? = some NL then (splitNL s).dropLast
  else splitNL s

/-- Model of `"\n".join(...)`. -/
def joinNL : List PyStr → PyStr
  | [] => []
  | [l] => l
  | l :: l' :: ls => l ++ NL :: joinNL (l' :: ls)

theorem splitNL_ne_nil (s : PyStr) : splitNL s ≠ [] := by
  match s with
  | [] => simp [splitNL]
  | c :: cs =>
    unfold splitNL
    split
    · simp
    · match h : splitNL cs with
      | [] => simp
      | l :: ls => simp

theorem splitNL_cons_newline (cs : PyStr) : splitNL (NL :: cs) = [] :: splitNL cs := by
  simp [splitNL]

theorem splitNL_cons_ne {c : Char} (h : ¬c = NL) (cs : PyStr) :
    splitNL (c :: cs) =
      match splitNL cs with
      | [] => [[c]]
      | l :: ls => (c :: l) :: ls := by
  simp [splitNL, h]

theorem splitNL_append_newline (xs ys : PyStr) :
    splitNL (xs ++ NL :: ys) = splitNL xs ++ splitNL ys := by
  induction xs with
  | nil => simp [splitNL]
  | cons c cs ih =>
    by_cases hc : c = NL
    · subst hc
      rw [List.cons_append, splitNL_cons_newline, splitNL_cons_newline, ih, List.cons_append]
    · rw [List.cons_append, splitNL_cons_ne hc, splitNL_cons_ne hc, ih]
      rcases hcs : splitNL cs with _ | ⟨l, ls⟩
      · exact absurd hcs (splitNL_ne_nil cs)
      · simp

theorem splitNL_of_not_mem {s : PyStr} (h : NL ∉ s) : splitNL s = [s] := by
  induction s with
  | nil => rfl
  | cons c cs ih =>
    have hc : c ≠ NL := fun he => h (he ▸ List.mem_cons_self c cs)
    have hcs : NL ∉ cs := fun hm => h (List.mem_cons_of_mem c hm)
    simp only [splitNL, if_neg hc, ih hcs]

theorem splitNL_joinNL (l : PyStr) (ls : List PyStr) :
    splitNL (joinNL (l :: ls)) = (l :: ls).flatMap splitNL := by
  induction ls generalizing l with
  | nil => simp [joinNL]
  | cons l' ls ih =>
    show splitNL (l ++ NL :: joinNL (l' :: ls)) = _
    rw [splitNL_append_newline, ih l']
    simp

/-- When the joined text is nonempty and has no trailing newline,
`splitlines` distributes over the joined pieces. -/
theorem pySplitlines_joinNL (l : PyStr) (ls : List PyStr)
    (h1 : joinNL (l :: ls) ≠ [])
    (h2 : (joinNL (l :: ls)).getLast? ≠ some NL) :
    pySplitlines (joinNL (l :: ls)) = (l :: ls).flatMap splitNL := by
  unfold pySplitlines
  rw [if_neg h1, if_neg h2, splitNL_joinNL]

/-- Fuel-based worker for `wordsPy`; the fuel is always at least the length
of the remaining input, so it never runs out. -/
def wordsPyAux : ℕ → PyStr → List PyStr
  | 0, _ => []
  | fuel + 1, l =>
    match l.dropWhile isPySpace with
    | [] => []
    | c :: rest =>
      (c :: rest).takeWhile (fun d => !isPySpace d) ::
        wordsPyAux fuel ((c :: rest).dropWhile (fun d => !isPySpace d))

/-- Model of `re.split(r"\s+", s)` for a string `s` with no leading
whitespace (the code only splits stripped lines): the whitespace-separated
tokens of `s`. -/
def wordsPy (l : PyStr) : List PyStr := wordsPyAux l.length l

theorem wordsPy_infix_aux :
    ∀ (n : ℕ) (l t : PyStr), t ∈ wordsPyAux n l → t <:+: l := by
  intro n
  induction n with
  | zero =>
    intro l t ht
    simp [wordsPyAux] at ht
  | succ n ih =>
    intro l t ht
    unfold wordsPyAux at ht
    split at ht
    · simp at ht
    · next c rest h =>
      have hsuffix : (c :: rest) <:+ l := h ▸ List.dropWhile_suffix isPySpace
      rcases List.mem_cons.mp ht with h1 | h2
      · subst h1
        exact ((List.takeWhile_prefix _).isInfix).trans hsuffix.isInfix
      · have hinf : t <:+: (c :: rest).dropWhile (fun d => !isPySpace d) :=
          ih _ t h2
        exact hinf.trans ((List.dropWhile_suffix _).isInfix.trans hsuffix.isInfix)

/-- Every token returned by `wordsPy` is a contiguous substring of the input. -/
theorem wordsPy_infix {l t : PyStr} (ht : t ∈ wordsPy l) : t <:+: l :=
  wordsPy_infix_aux l.length l t ht

/-! ### Emotion events and the emotion scorer
(`parse_emotions` / `score_emotion_face_base10` in `evaluation_service.py`) -/

/-- An emotion event: a UTC timestamp (modelled as integer microseconds since
the Unix epoch, exactly the resolution of Python `datetime`) and a label. -/
structure EmotionEvent where
  ts : ℤ
  emotion : PyStr
deriving DecidableEq, Repr

/-- Label normalisation applied by the scorer: `(e.emotion or "").lower().strip()`. -/
def normLabel (s : PyStr) : PyStr := stripPy (lowerPy s)

/-- One step of the counting dict: `counts[emo] = counts.get(emo, 0) + 1`. -/
def bump : List (PyStr × ℕ) → PyStr → List (PyStr × ℕ)
  | [], k => [(k, 1)]
  | (k', n) :: rest, k => if k' = k then (k', n + 1) :: rest else (k', n) :: bump rest k

/-- The label-frequency dict built by the scorer's loop over the events. -/
def countsOf (events : List EmotionEvent) : List (PyStr × ℕ) :=
  events.foldl (fun cs e => bump cs (normLabel e.emotion)) []

/-- Model of `counts.get(k, 0)` / `ratios.get(k, 0.0)` numerators. -/
def getCount : List (PyStr × ℕ) → PyStr → ℕ
  | [], _ => 0
  | (k', n) :: rest, k => if k' = k then n else getCount rest k

theorem getCount_bump (cs : List (PyStr × ℕ)) (k' k : PyStr) :
    getCount (bump cs k') k = getCount cs k + (if k' = k then 1 else 0) := by
  induction cs with
  | nil => by_cases h : k' = k <;> simp [bump, getCount, h]
  | cons p rest ih =>
    obtain ⟨k0, n⟩ := p
    by_cases h0 : k0 = k'
    · subst h0
      by_cases h : k0 = k <;> simp [bump, getCount, h]
    · by_cases h : k0 = k
      · subst h
        have : ¬k' = k0 := fun he => h0 he.symm
        simp [bump, getCount, h0, this]
      · simp [bump, getCount, h0, h, ih]

theorem sum_bump (cs : List (PyStr × ℕ)) (k : PyStr) :
    ((bump cs k).map Prod.snd).sum = (cs.map Prod.snd).sum + 1 := by
  induction cs with
  | nil => simp [bump]
  | cons p rest ih =>
    obtain ⟨k0, n⟩ := p
    by_cases h : k0 = k
    · simp [bump, h]
      omega
    · simp [bump, h, ih]
      omega

theorem getCount_foldl (l : List EmotionEvent) :
    ∀ (cs : List (PyStr × ℕ)) (k : PyStr),
      getCount (l.foldl (fun a e => bump a (normLabel e.emotion)) cs) k
        = getCount cs k + l.countP (fun e => normLabel e.emotion == k) := by
  induction l with
  | nil => intro cs k; simp
  | cons e es ih =>
    intro cs k
    rw [List.foldl_cons, ih, getCount_bump, List.countP_cons]
    by_cases h : normLabel e.emotion = k
    · simp [h]
      omega
    · simp [h]

theorem getCount_countsOf (l : List EmotionEvent) (k : PyStr) :
    getCount (countsOf l) k = l.countP (fun e => normLabel e.emotion == k) := by
  unfold countsOf
  rw [getCount_foldl]
  simp [getCount]

theorem sum_countsOf (l : List EmotionEvent) :
    ((countsOf l).map Prod.snd).sum = l.length := by
  unfold countsOf
  have : ∀ (cs : List (PyStr × ℕ)),
      ((l.foldl (fun a e => bump a (normLabel e.emotion)) cs).map Prod.snd).sum
        = (cs.map Prod.snd).sum + l.length := by
    induction l with
    | nil => intro cs; simp
    | cons e es ih =>
      intro cs
      rw [List.foldl_cons, ih, sum_bump]
      simp
      omega
  rw [this []]
  simp

/-- The claim-side frequency ratio of (normalised) label `c` among the events. -/
def ratioOf (l : List EmotionEvent) (c : PyStr) : ℚ :=
  (l.countP (fun e => normLabel e.emotion == c) : ℚ) / (l.length : ℚ)

/-- Model of `score_emotion_face_base10` (first component of its return value;
the explanatory `detail` dict is not modelled).  Empty input returns the fixed
default `7.0`; otherwise penalties and bonuses scale with the label ratios and
the result is clamped to `[0, 10]` and rounded to two decimals. -/
def score_emotion_face_base10 (events : List EmotionEvent) : ℚ :=
  if events = [] then 7
  else
    let counts := countsOf events
    let total : ℚ := (((counts.map Prod.snd).sum : ℕ) : ℚ)
    let ratio := fun k => (getCount counts k : ℚ) / total
    let angry_r := ratio (pys "angry")
    let disgust_r := ratio (pys "disgust")
    let fear_r := ratio (pys "fear")
    let sad_r := ratio (pys "sad")
    let happy_r := ratio (pys "happy")
    let neutral_r := ratio (pys "neutral")
    let surprise_r := ratio (pys "surprise")
    let angry_pen := 1.2 * angry_r * 10
    let disgust_pen := 1.0 * disgust_r * 10
    let fear_pen := 0.6 * fear_r * 10
    let sad_pen := 0.4 * sad_r * 10
    let happy_bonus := 0.15 * happy_r * 10
    let neutral_bonus := 0.10 * neutral_r * 10
    let surprise_bonus := 0.08 * surprise_r * 10
    let score := 10 - (angry_pen + disgust_pen + fear_pen + sad_pen)
      + (happy_bonus + neutral_bonus + surprise_bonus)
    round2 (clamp10 score)

/-- The scorer, written as a function of the seven claim-side ratios. -/
theorem score_emotion_eq_ratio_form (l : List EmotionEvent) (h : l ≠ []) :
    score_emotion_face_base10 l
      = round2 (clamp10 (10
          - (1.2 * ratioOf l (pys "angry") + 1.0 * ratioOf l (pys "disgust")
              + 0.6 * ratioOf l (pys "fear") + 0.4 * ratioOf l (pys "sad")) * 10
          + (0.15 * ratioOf l (pys "happy") + 0.10 * ratioOf l (pys "neutral")
              + 0.08 * ratioOf l (pys "surprise")) * 10)) := by
  unfold score_emotion_face_base10
  rw [if_neg h]
  simp only [getCount_countsOf, sum_countsOf]
  unfold ratioOf
  ring_nf

/-- The seven fixed emotion categories (`emotion_labels` in
`emotion_service.py`; negative then positive). -/
def negLabels : List PyStr := [pys "angry", pys "disgust", pys "fear", pys "sad"]

/-- The positively weighted categories. -/
def posLabels : List PyStr := [pys "happy", pys "neutral", pys "surprise"]

/-- All seven fixed categories. -/
def sevenLabels : List PyStr := negLabels ++ posLabels

/-- The length-scaled net penalty of an event list: ten times the weighted
difference of the seven category counts. -/
def netPenalty (l : List EmotionEvent) : ℚ :=
  12 * (l.countP (fun e => normLabel e.emotion == pys "angry") : ℚ)
    + 10 * (l.countP (fun e => normLabel e.emotion == pys "disgust") : ℚ)
    + 6 * (l.countP (fun e => normLabel e.emotion == pys "fear") : ℚ)
    + 4 * (l.countP (fun e => normLabel e.emotion == pys "sad") : ℚ)
    - (1.5 * (l.countP (fun e => normLabel e.emotion == pys "happy") : ℚ)
        + 1 * (l.countP (fun e => normLabel e.emotion == pys "neutral") : ℚ)
        + 0.8 * (l.countP (fun e => normLabel e.emotion == pys "surprise") : ℚ))

theorem score_emotion_eq_netPenalty_form (l : List EmotionEvent) (h : l ≠ []) :
    score_emotion_face_base10 l
      = round2 (clamp10 (10 - netPenalty l / (l.length : ℚ))) := by
  rw [score_emotion_eq_ratio_form l h]
  have hn : (l.length : ℚ) ≠ 0 := by
    have : l.length ≠ 0 := fun h0 => h (List.length_eq_zero.mp h0)
    exact_mod_cast this
  unfold ratioOf netPenalty
  congr 1
  congr 1
  field_simp
  ring

theorem round2_ofIntCast (m : ℤ) : round2 ((m : ℚ)) = (m : ℚ) := by
  unfold round2
  rw [show ((100 : ℚ) * m) = ((100 * m : ℤ) : ℚ) by push_cast; ring, rheInt_intCast]
  push_cast
  field_simp

/-- Events with labels outside the seven categories have zero category counts. -/
theorem countP_eq_zero_of_unrecognized {l : List EmotionEvent} {c : PyStr}
    (hc : c ∈ sevenLabels) (h : ∀ e ∈ l, normLabel e.emotion ∉ sevenLabels) :
    l.countP (fun e => normLabel e.emotion == c) = 0 := by
  rw [List.countP_eq_zero]
  intro e he
  simp only [beq_iff_eq]
  intro heq
  exact h e he (heq ▸ hc)

theorem netPenalty_eq_zero_of_unrecognized {l : List EmotionEvent}
    (h : ∀ e ∈ l, normLabel e.emotion ∉ sevenLabels) : netPenalty l = 0 := by
  unfold netPenalty
  rw [countP_eq_zero_of_unrecognized (by simp [sevenLabels, negLabels]) h,
    countP_eq_zero_of_unrecognized (by simp [sevenLabels, negLabels]) h,
    countP_eq_zero_of_unrecognized (by simp [sevenLabels, negLabels]) h,
    countP_eq_zero_of_unrecognized (by simp [sevenLabels, negLabels]) h,
    countP_eq_zero_of_unrecognized (by simp [sevenLabels, posLabels]) h,
    countP_eq_zero_of_unrecognized (by simp [sevenLabels, posLabels]) h,
    countP_eq_zero_of_unrecognized (by simp [sevenLabels, posLabels]) h]
  norm_num

theorem score_emotion_of_unrecognized {l : List EmotionEvent} (hne : l ≠ [])
    (h : ∀ e ∈ l, normLabel e.emotion ∉ sevenLabels) :
    score_emotion_face_base10 l = 10 := by
  rw [score_emotion_eq_netPenalty_form l hne, netPenalty_eq_zero_of_unrecognized h]
  have hn : (0:ℚ) / (l.length : ℚ) = 0 := by simp
  rw [hn, sub_zero, clamp10_of_ge_ten (le_refl 10),
    show (10:ℚ) = ((10:ℤ):ℚ) by norm_num, round2_ofIntCast]

/-- Appending events whose normalised label is `"none"` does not change
category counts. -/
theorem countP_append_none (l : List EmotionEvent) (t : ℤ) (k : ℕ) (c : PyStr)
    (hc : c ∈ sevenLabels) :
    (l ++ List.replicate k (⟨t, pys "none"⟩ : EmotionEvent)).countP
        (fun e => normLabel e.emotion == c)
      = l.countP (fun e => normLabel e.emotion == c) := by
  rw [List.countP_append]
  have : (List.replicate k (⟨t, pys "none"⟩ : EmotionEvent)).countP
      (fun e => normLabel e.emotion == c) = 0 := by
    rw [List.countP_eq_zero]
    intro e he
    rw [List.eq_of_mem_replicate he]
    simp only [beq_iff_eq]
    intro heq
    have : normLabel (pys "none") = pys "none" := by decide
    rw [this] at heq
    revert hc
    rw [← heq]
    decide
  omega

theorem netPenalty_append_none (l : List EmotionEvent) (t : ℤ) (k : ℕ) :
    netPenalty (l ++ List.replicate k (⟨t, pys "none"⟩ : EmotionEvent)) = netPenalty l := by
  unfold netPenalty
  rw [countP_append_none l t k _ (by decide), countP_append_none l t k _ (by decide),
    countP_append_none l t k _ (by decide), countP_append_none l t k _ (by decide),
    countP_append_none l t k _ (by decide), countP_append_none l t k _ (by decide),
    countP_append_none l t k _ (by decide)]

theorem clamp_pen_mono {P : ℚ} {n m : ℚ} (hn : 0 < n) (hnm : n ≤ m) :
    clamp10 (10 - P / n) ≤ clamp10 (10 - P / m) := by
  have hm : 0 < m := lt_of_lt_of_le hn hnm
  rcases le_or_lt 0 P with hP | hP
  · apply clamp10_mono
    have : P / m ≤ P / n := by
      rw [div_le_div_iff hm hn]
      nlinarith
    linarith
  · have h1 : (10:ℚ) ≤ 10 - P / n := by
      have : P / n < 0 := div_neg_of_neg_of_pos hP hn
      linarith
    have h2 : (10:ℚ) ≤ 10 - P / m := by
      have : P / m < 0 := div_neg_of_neg_of_pos hP hm
      linarith
    rw [clamp10_of_ge_ten h1, clamp10_of_ge_ten h2]

/-! ### Timestamp parsing (`_parse_iso_z`) -/

/-- Numeric value of a run of ASCII digits. -/
def digitsToNat (l : PyStr) : ℕ := l.foldl (fun a c => 10 * a + (c.toNat - '0'.toNat)) 0

/-- Gregorian leap-year rule. -/
def isLeapYear (y : ℕ) : Bool := (y % 4 == 0 && y % 100 != 0) || y % 400 == 0

/-- Number of days in a month. -/
def daysInMonth (y m : ℕ) : ℕ :=
  if m = 2 then (if isLeapYear y then 29 else 28)
  else if m = 4 || m = 6 || m = 9 || m = 11 then 30
  else 31

/-- Days from 1970-01-01 to the given civil date (standard days-from-civil
algorithm, valid for years `1..9999`). -/
def daysFromCivil (y m d : ℕ) : ℤ :=
  let yy : ℕ := if m ≤ 2 then y - 1 else y
  let era : ℕ := yy / 400
  let yoe : ℕ := yy % 400
  let mp : ℕ := (m + 9) % 12
  let doy : ℕ := (153 * mp + 2) / 5 + (d - 1)
  let doe : ℕ := yoe * 365 + yoe / 4 - yoe / 100 + doy
  (era * 146097 + doe : ℤ) - 719468

/-- Microseconds since the Unix epoch of a civil date at midnight. -/
def dateMicros (y m d : ℕ) : ℤ := daysFromCivil y m d * 86400000000

/-- A parsed datetime: wall-clock microseconds and an optional UTC offset in
microseconds (`none` for a naive datetime). -/
structure PyDateTime where
  micros : ℤ
  off : Option ℤ
deriving DecidableEq, Repr

/-- Parse the `[+-]HH:MM[:SS]` offset tail of an ISO string (the only offset
shapes produced upstream), given the wall-clock microseconds so far.
Models the tail handling of `datetime.fromisoformat`. -/
def parseOffTail (base : ℤ) (l : PyStr) : Option PyDateTime :=
  match l with
  | [] => some ⟨base, none⟩
  | sgn :: h1 :: h2 :: ':' :: m1 :: m2 :: rest =>
    if (sgn = '+' || sgn = '-') && h1.isDigit && h2.isDigit && m1.isDigit && m2.isDigit then
      let oh := digitsToNat [h1, h2]
      let om := digitsToNat [m1, m2]
      let osec : Option ℕ :=
        match rest with
        | [] => some 0
        | ':' :: s1 :: s2 :: [] =>
          if s1.isDigit && s2.isDigit && digitsToNat [s1, s2] ≤ 59 then
            some (digitsToNat [s1, s2])
          else none
        | _ => none
      match osec with
      | none => none
      | some os =>
        if oh ≤ 23 && om ≤ 59 then
          let off : ℤ := ((oh * 3600 + om * 60 + os : ℕ) : ℤ) * 1000000
          some ⟨base, some (if sgn = '-' then -off else off)⟩
        else none
    else none
  | _ => none

/-- Parse the `HH:MM[:SS[.ffffff]]` time part followed by an optional offset.
Models the time handling of `datetime.fromisoformat`. -/
def parseTimeTail (dbase : ℤ) (l : PyStr) : Option PyDateTime :=
  match l with
  | h1 :: h2 :: ':' :: m1 :: m2 :: rest =>
    if h1.isDigit && h2.isDigit && m1.isDigit && m2.isDigit then
      let h := digitsToNat [h1, h2]
      let mi := digitsToNat [m1, m2]
      if h ≤ 23 && mi ≤ 59 then
        let hmBase : ℤ := dbase + ((h * 3600 + mi * 60 : ℕ) : ℤ) * 1000000
        match rest with
        | ':' :: s1 :: s2 :: rest2 =>
          if s1.isDigit && s2.isDigit && digitsToNat [s1, s2] ≤ 59 then
            let sBase := hmBase + ((digitsToNat [s1, s2] : ℕ) : ℤ) * 1000000
            match rest2 with
            | '.' :: rest3 =>
              let fracDigits := rest3.takeWhile Char.isDigit
              let rest4 := rest3.dropWhile Char.isDigit
              if 1 ≤ fracDigits.length && fracDigits.length ≤ 6 then
                let fracMicros : ℤ :=
                  ((digitsToNat fracDigits * 10 ^ (6 - fracDigits.length) : ℕ) : ℤ)
                parseOffTail (sBase + fracMicros) rest4
              else none
            | _ => parseOffTail sBase rest2
          else none
        | _ => parseOffTail hmBase rest
      else none
    else none
  | _ => none

/-- Model of `datetime.fromisoformat` on the ISO-8601 shapes reaching
`_parse_iso_z`: `YYYY-MM-DD[<sep>HH:MM[:SS[.ffffff]][±HH:MM[:SS]]]` with any
single separator character, validating calendar ranges. -/
def fromIso (s : PyStr) : Option PyDateTime :=
  match s with
  | y1 :: y2 :: y3 :: y4 :: '-' :: m1 :: m2 :: '-' :: d1 :: d2 :: rest =>
    if y1.isDigit && y2.isDigit && y3.isDigit && y4.isDigit
        && m1.isDigit && m2.isDigit && d1.isDigit && d2.isDigit then
      let y := digitsToNat [y1, y2, y3, y4]
      let mo := digitsToNat [m1, m2]
      let d := digitsToNat [d1, d2]
      if 1 ≤ y && 1 ≤ mo && mo ≤ 12 && 1 ≤ d && d ≤ daysInMonth y mo then
        match rest with
        | [] => some ⟨dateMicros y mo d, none⟩
        | _sep :: trest => parseTimeTail (dateMicros y mo d) trest
      else none
    else none
  | _ => none

/-- Model of `_parse_iso_z`: strip, rewrite a trailing `Z` to `+00:00`, parse,
and convert to UTC with `astimezone(timezone.utc)`.  `tzOff` is the ambient
local-timezone offset (in microseconds) that Python would apply to a naive
datetime; every timestamp written by the Log Writer carries `Z`, making the
result independent of `tzOff` there. -/
def parse_iso_z (tzOff : ℤ) (s : PyStr) : Option ℤ :=
  let ts := stripPy s
  if ts = [] then none
  else
    let ts2 := if ts.getLast? = some 'Z' then ts.dropLast ++ pys "+00:00" else ts
    match fromIso ts2 with
    | none => none
    | some dt =>
      match dt.off with
      | some off => some (dt.micros - off)
      | none => some (dt.micros - tzOff)

/-! ### Emotion log parsing (`parse_emotions`) -/

/-- Word characters of the regex class `\w` (ASCII inputs). -/
def isWordChar (c : Char) : Bool := c.isAlphanum || c = '_'

/-- Matcher for the strict line pattern
`^(?P<ts>\d{4}-\d{2}-\d{2}T[^ \t]+)\s+emotion=(?P<emo>\w+)\s*$` (`_EMO_RE`);
returns the two capture groups.  On a line with no internal tabs or newlines
the timestamp group is exactly the first whitespace-delimited token. -/
def strictTail (ln : PyStr) : PyStr :=
  (ln.dropWhile (fun c => !isPySpace c)).dropWhile isPySpace

def strictMatch (ln : PyStr) : Option (PyStr × PyStr) :=
  match ln.takeWhile (fun c => !isPySpace c) with
  | c1 :: c2 :: c3 :: c4 :: '-' :: c5 :: c6 :: '-' :: c7 :: c8 :: 'T' :: tl =>
    if c1.isDigit && c2.isDigit && c3.isDigit && c4.isDigit
        && c5.isDigit && c6.isDigit && c7.isDigit && c8.isDigit && !tl.isEmpty then
      if (pys "emotion=").isPrefixOf (strictTail ln) then
        if !(((strictTail ln).drop 8).takeWhile isWordChar).isEmpty
            && (((strictTail ln).drop 8).dropWhile isWordChar).all isPySpace then
          some (c1 :: c2 :: c3 :: c4 :: '-' :: c5 :: c6 :: '-' :: c7 :: c8 :: 'T' :: tl,
            ((strictTail ln).drop 8).takeWhile isWordChar)
        else none
      else none
    else none
  | _ => none

/-- The separator string of the tolerant branch. -/
def emoSep : PyStr := pys "emotion="

/-- First occurrence split: `some (before, after)` when `emoSep` occurs. -/
def findEmoSep : PyStr → Option (PyStr × PyStr)
  | [] => none
  | c :: cs =>
    if emoSep.isPrefixOf (c :: cs) then some ([], (c :: cs).drop emoSep.length)
    else
      match findEmoSep cs with
      | some (b, a) => some (c :: b, a)
      | none => none

theorem findEmoSep_length : ∀ (l b a : PyStr), findEmoSep l = some (b, a) → a.length < l.length := by
  intro l
  induction l with
  | nil => intro b a h; simp [findEmoSep] at h
  | cons c cs ih =>
    intro b a h
    unfold findEmoSep at h
    split at h
    · simp only [Option.some.injEq, Prod.mk.injEq] at h
      obtain ⟨-, ha⟩ := h
      subst ha
      rw [List.length_drop]
      have : 1 ≤ emoSep.length := by decide
      simp only [List.length_cons]
      omega
    · rcases hf : findEmoSep cs with - | ⟨b', a'⟩
      · rw [hf] at h; simp at h
      · rw [hf] at h
        simp only [Option.some.injEq, Prod.mk.injEq] at h
        obtain ⟨-, ha⟩ := h
        subst ha
        have := ih b' a' hf
        simp only [List.length_cons]
        omega

/-- Fuel-based worker for `afterLastEmoSep`; each found occurrence strictly
shortens the remainder, so fuel equal to the length never runs out. -/
def afterLastEmoSepAux : ℕ → PyStr → PyStr
  | 0, l => l
  | fuel + 1, l =>
    match findEmoSep l with
    | none => l
    | some (_, after) => afterLastEmoSepAux fuel after

/-- Model of `parts[-1].split("emotion=")[-1]`: the text after the last
occurrence of `"emotion="` (the whole string when it does not occur). -/
def afterLastEmoSep (l : PyStr) : PyStr := afterLastEmoSepAux l.length l

/-- The preprocessing `ln = raw.strip().replace("\t", " ")` applied to each
line of the log. -/
def processedLine (raw : PyStr) : PyStr :=
  (stripPy raw).map (fun c => if c = '\t' then ' ' else c)

/-- Per-line behaviour of the loop body of `parse_emotions`: the produced
event, if any (`ln`, `parts`, `lastTok` and `emo` of the source are written
inline). -/
def lineEvent (tzOff : ℤ) (raw : PyStr) : Option EmotionEvent :=
  if processedLine raw = [] then none
  else
    match strictMatch (processedLine raw) with
    | some (tss, emo) =>
      match parse_iso_z tzOff tss with
      | some t => if lowerPy emo ≠ [] then some ⟨t, lowerPy emo⟩ else none
      | none => none
    | none =>
      match wordsPy (processedLine raw) with
      | [] => none
      | p0 :: prest =>
        if prest ≠ [] ∧ emoSep <:+: (p0 :: prest).getLastD [] then
          match parse_iso_z tzOff p0 with
          | some t =>
            if lowerPy (stripPy (afterLastEmoSep ((p0 :: prest).getLastD []))) ≠ [] then
              some ⟨t, lowerPy (stripPy (afterLastEmoSep ((p0 :: prest).getLastD [])))⟩
            else none
          | none => none
        else none

/-- Comparison by timestamp, the sort key of `events.sort(key=lambda e: e.ts)`. -/
def tsLE (a b : EmotionEvent) : Prop := a.ts ≤ b.ts

instance : DecidableRel tsLE := fun a b => inferInstanceAs (Decidable (a.ts ≤ b.ts))

instance : IsTotal EmotionEvent tsLE := ⟨fun a b => le_total a.ts b.ts⟩

instance : IsTrans EmotionEvent tsLE := ⟨fun _ _ _ h1 h2 => le_trans h1 h2⟩

/-- Model of `parse_emotions`: per-line extraction over the split lines,
followed by the stable ascending sort on the timestamp. -/
def parse_emotions (tzOff : ℤ) (text : PyStr) : List EmotionEvent :=
  List.insertionSort tsLE ((pySplitlines text).filterMap (lineEvent tzOff))

theorem rstripPy_prefix (l : PyStr) : rstripPy l <+: l := by
  have h := List.reverse_prefix.mpr (List.dropWhile_suffix (p := isPySpace) (l := l.reverse))
  rwa [List.reverse_reverse] at h

theorem head_not_space_of_stripPy {l : PyStr} {c : Char} {rest : PyStr}
    (h : stripPy l = c :: rest) : isPySpace c = false := by
  unfold stripPy at h
  rcases rstripPy_prefix (lstripPy l) with ⟨tail, htail⟩
  rw [h] at htail
  have hhead : (lstripPy l).head? = some c := by rw [← htail]; rfl
  unfold lstripPy at hhead
  rcases hld : l.dropWhile isPySpace with _ | ⟨c', rest'⟩
  · rw [hld] at hhead; simp at hhead
  · rw [hld] at hhead
    simp only [List.head?_cons, Option.some.injEq] at hhead
    have hh := List.head_dropWhile_not (p := isPySpace) (l := l)
    rw [hld] at hh
    have := hh (by simp)
    rw [← hhead]
    simpa using this

/-- The processed line has no leading whitespace. -/
theorem dropWhile_processedLine (raw : PyStr) :
    (processedLine raw).dropWhile isPySpace = processedLine raw := by
  rcases hp : processedLine raw with _ | ⟨c, rest⟩
  · rfl
  · unfold processedLine at hp
    rcases hs : stripPy raw with _ | ⟨c0, rest0⟩
    · rw [hs] at hp; simp at hp
    · rw [hs] at hp
      simp only [List.map_cons, List.cons.injEq] at hp
      have hc0 : isPySpace c0 = false := head_not_space_of_stripPy hs
      have hcc : isPySpace c = false := by
        rw [← hp.1]
        by_cases ht : c0 = '\t'
        · subst ht; simp [isPySpace] at hc0
        · rw [if_neg ht]; exact hc0
      rw [List.dropWhile_cons_of_neg]
      simp [hcc]

/-- A successful strict match forces the token `"emotion="` to occur in the
line, and its timestamp group is the first whitespace-delimited token. -/
theorem strictMatch_emoSep {ln : PyStr} {p : PyStr × PyStr}
    (h : strictMatch ln = some p) : emoSep <:+: ln := by
  unfold strictMatch at h
  split at h
  · split at h
    · split at h
      · next hpre =>
        have hp : emoSep <+: strictTail ln := List.isPrefixOf_iff_prefix.mp hpre
        have hs1 : strictTail ln <:+ ln.dropWhile (fun c => !isPySpace c) :=
          List.dropWhile_suffix _
        have hs2 : ln.dropWhile (fun c => !isPySpace c) <:+ ln := List.dropWhile_suffix _
        exact hp.isInfix.trans (hs1.trans hs2).isInfix
      · exact absurd h (by simp)
    · exact absurd h (by simp)
  · exact absurd h (by simp)

theorem strictMatch_ts {ln : PyStr} {tss emo : PyStr}
    (h : strictMatch ln = some (tss, emo)) :
    tss = ln.takeWhile (fun c => !isPySpace c) := by
  unfold strictMatch at h
  split at h
  · next c1 c2 c3 c4 c5 c6 c7 c8 tl heq =>
    split at h
    · split at h
      · split at h
        · simp only [Option.some.injEq, Prod.mk.injEq] at h
          rw [← h.1, heq]
        · exact absurd h (by simp)
      · exact absurd h (by simp)
    · exact absurd h (by simp)
  · exact absurd h (by simp)

/-- First token of the tolerant split: for a line with no leading whitespace
the first `re.split(r"\s+")` token is the longest non-whitespace head. -/
theorem wordsPy_head {ln : PyStr} {p0 : PyStr} {prest : List PyStr}
    (hw : wordsPy ln = p0 :: prest) (hnl : ln.dropWhile isPySpace = ln) :
    p0 = ln.takeWhile (fun c => !isPySpace c) := by
  unfold wordsPy at hw
  rcases hlen : ln.length with _ | n
  · have : ln = [] := List.length_eq_zero.mp hlen
    subst this
    simp [wordsPyAux] at hw
  · rw [hlen] at hw
    unfold wordsPyAux at hw
    rw [hnl] at hw
    rcases ln with _ | ⟨c, rest⟩
    · simp at hlen
    · simp only [List.cons.injEq] at hw
      exact hw.1.symm

/-- A line in which `"emotion="` does not occur yields no event. -/
theorem lineEvent_none_of_no_emoSep (tzOff : ℤ) (raw : PyStr)
    (h : ¬ emoSep <:+: processedLine raw) : lineEvent tzOff raw = none := by
  unfold lineEvent
  rcases hln : processedLine raw with _ | ⟨c, rest⟩
  · simp
  · rw [if_neg (by simp)]
    rcases hsm : strictMatch (c :: rest) with _ | ⟨tss, emo⟩
    · rcases hw : wordsPy (c :: rest) with _ | ⟨p0, prest⟩
      · rfl
      · dsimp only
        rw [if_neg]
        intro hcon
        apply h
        rw [hln]
        have hmem : (p0 :: prest).getLastD [] ∈ p0 :: prest := by
          rw [List.getLastD_eq_getLast?, List.getLast?_eq_getLast _ (by simp)]
          simp only [Option.getD_some]
          exact List.getLast_mem _
        have : (p0 :: prest).getLastD [] <:+: (c :: rest) :=
          wordsPy_infix (hw ▸ hmem)
        exact hcon.2.trans this
    · exfalso
      apply h
      rw [hln]
      exact strictMatch_emoSep hsm

/-- A line whose (first-token) timestamp does not parse yields no event. -/
theorem lineEvent_none_of_bad_ts (tzOff : ℤ) (raw : PyStr)
    (h : parse_iso_z tzOff ((processedLine raw).takeWhile (fun c => !isPySpace c)) = none) :
    lineEvent tzOff raw = none := by
  unfold lineEvent
  rcases hln : processedLine raw with _ | ⟨c, rest⟩
  · simp
  · rw [hln] at h
    rw [if_neg (by simp)]
    rcases hsm : strictMatch (c :: rest) with _ | ⟨tss, emo⟩
    · rcases hw : wordsPy (c :: rest) with _ | ⟨p0, prest⟩
      · rfl
      · dsimp only
        split
        · have hp0 : p0 = (c :: rest).takeWhile (fun d => !isPySpace d) := by
            apply wordsPy_head hw
            have := dropWhile_processedLine raw
            rw [hln] at this
            exact this
          rw [hp0, h]
        · rfl
    · dsimp only
      have hts := strictMatch_ts hsm
      rw [hts, h]

/-- Any produced event has a non-empty label. -/
theorem lineEvent_emotion_ne_nil (tzOff : ℤ) (raw : PyStr) (e : EmotionEvent)
    (h : lineEvent tzOff raw = some e) : e.emotion ≠ [] := by
  unfold lineEvent at h
  rcases hln : processedLine raw with _ | ⟨c, rest⟩
  · rw [hln] at h; simp at h
  · rw [hln] at h
    rw [if_neg (by simp)] at h
    rcases hsm : strictMatch (c :: rest) with _ | ⟨tss, emo⟩
    · rw [hsm] at h
      dsimp only at h
      rcases hw : wordsPy (c :: rest) with _ | ⟨p0, prest⟩
      · rw [hw] at h
        simp at h
      · rw [hw] at h
        dsimp only at h
        by_cases hcond : prest ≠ [] ∧ emoSep <:+: (p0 :: prest).getLastD []
        · rw [if_pos hcond] at h
          rcases hpi : parse_iso_z tzOff p0 with _ | t
          · rw [hpi] at h; simp at h
          · rw [hpi] at h
            dsimp only at h
            by_cases hne : lowerPy (stripPy (afterLastEmoSep ((p0 :: prest).getLastD []))) ≠ []
            · rw [if_pos hne] at h
              simp only [Option.some.injEq] at h
              rw [← h]
              exact hne
            · rw [if_neg hne] at h; simp at h
        · rw [if_neg hcond] at h; simp at h
    · rw [hsm] at h
      dsimp only at h
      rcases hpi : parse_iso_z tzOff tss with _ | t
      · rw [hpi] at h; simp at h
      · rw [hpi] at h
        dsimp only at h
        by_cases hne : lowerPy emo ≠ []
        · rw [if_pos hne] at h
          simp only [Option.some.injEq] at h
          rw [← h]; exact hne
        · rw [if_neg hne] at h; simp at h

/-! ### The Log Writer's no-face line and label dilution -/

/-- One Log Writer line for a no-face tick with an empty note
(`f"{ts}\temotion={emo}\t{note}\n"` with `emo = None`, `note = ""`),
without its trailing newline. -/
def noFaceLine : PyStr := pys "2025-01-01T00:00:00Z\temotion=None\t"

/-- The UTC epoch microseconds of `2025-01-01T00:00:00Z`. -/
def noFaceTs : ℤ := 1735689600000000

theorem lineEvent_noFace (tzOff : ℤ) :
    lineEvent tzOff noFaceLine = some ⟨noFaceTs, pys "none"⟩ := rfl

theorem splitNL_flatten_noface (k : ℕ) :
    splitNL ((List.replicate k (noFaceLine ++ [NL])).flatten)
      = List.replicate k noFaceLine ++ [[]] := by
  induction k with
  | zero => simp [splitNL]
  | succ k ih =>
    rw [List.replicate_succ, List.flatten_cons]
    have hsh : (noFaceLine ++ [NL]) ++ (List.replicate k (noFaceLine ++ [NL])).flatten
        = noFaceLine ++ NL :: (List.replicate k (noFaceLine ++ [NL])).flatten := by
      simp
    rw [hsh, splitNL_append_newline, splitNL_of_not_mem (by decide), ih, List.replicate_succ]
    simp

theorem pySplitlines_noface {k : ℕ} (hk : k ≠ 0) :
    pySplitlines ((List.replicate k (noFaceLine ++ [NL])).flatten)
      = List.replicate k noFaceLine := by
  obtain ⟨j, rfl⟩ : ∃ j, k = j + 1 := ⟨k - 1, by omega⟩
  have hs : (List.replicate (j+1) (noFaceLine ++ [NL])).flatten
      = ((List.replicate j (noFaceLine ++ [NL])).flatten ++ noFaceLine) ++ [NL] := by
    rw [List.replicate_succ', List.flatten_append]
    simp
  have h2 : ((List.replicate (j+1) (noFaceLine ++ [NL])).flatten).getLast? = some NL := by
    rw [hs]
    exact List.getLast?_concat _
  have h3 : (List.replicate (j+1) (noFaceLine ++ [NL])).flatten ≠ [] := by
    rw [hs]; simp
  unfold pySplitlines
  rw [if_neg h3, if_pos h2, splitNL_flatten_noface, List.dropLast_concat]

theorem filterMap_replicate_some {α β : Type} {f : α → Option β} {x : α} {y : β}
    (h : f x = some y) (k : ℕ) :
    (List.replicate k x).filterMap f = List.replicate k y := by
  induction k with
  | zero => rfl
  | succ k ih => simp [List.replicate_succ, h, ih]

theorem insertionSort_replicate (k : ℕ) (e : EmotionEvent) :
    List.insertionSort tsLE (List.replicate k e) = List.replicate k e := by
  apply List.Sorted.insertionSort_eq
  induction k with
  | zero => exact List.Pairwise.nil
  | succ k ih =>
    rw [List.replicate_succ]
    refine List.Pairwise.cons ?_ ih
    intro b hb
    rw [List.eq_of_mem_replicate hb]
    exact le_refl e.ts

theorem parse_noface_log (tzOff : ℤ) {k : ℕ} (hk : k ≠ 0) :
    parse_emotions tzOff ((List.replicate k (noFaceLine ++ [NL])).flatten)
      = List.replicate k ⟨noFaceTs, pys "none"⟩ := by
  unfold parse_emotions
  rw [pySplitlines_noface hk, filterMap_replicate_some (lineEvent_noFace tzOff),
    insertionSort_replicate]

theorem score_replicate_none {k : ℕ} (hk : k ≠ 0) (t : ℤ) :
    score_emotion_face_base10 (List.replicate k (⟨t, pys "none"⟩ : EmotionEvent)) = 10 := by
  apply score_emotion_of_unrecognized
  · simp [hk]
  · intro e he
    rw [List.eq_of_mem_replicate he]
    exact (by decide : normLabel (pys "none") ∉ sevenLabels)

theorem ratioOf_append_none_le (l : List EmotionEvent) (hl : l ≠ []) (t : ℤ) (k : ℕ)
    (c : PyStr) (hc : c ∈ sevenLabels) :
    ratioOf (l ++ List.replicate k (⟨t, pys "none"⟩ : EmotionEvent)) c ≤ ratioOf l c := by
  unfold ratioOf
  rw [countP_append_none l t k c hc, List.length_append, List.length_replicate]
  have hn : 0 < (l.length : ℚ) := by
    have : 0 < l.length := List.length_pos.mpr hl
    exact_mod_cast this
  have hm : 0 < ((l.length + k : ℕ) : ℚ) := by
    have hlp : 0 < l.length := List.length_pos.mpr hl
    have : 0 < l.length + k := by omega
    exact_mod_cast this
  rw [div_le_div_iff hm hn]
  have h0 : (0:ℚ) ≤ (l.countP (fun e => normLabel e.emotion == c) : ℚ) := by positivity
  have hle : (l.length : ℚ) ≤ ((l.length + k : ℕ) : ℚ) := by
    push_cast
    linarith [Nat.cast_nonneg (α := ℚ) k]
  nlinarith

theorem score_append_none_ge (l : List EmotionEvent) (hl : l ≠ []) (t : ℤ) (k : ℕ) :
    score_emotion_face_base10 l
      ≤ score_emotion_face_base10 (l ++ List.replicate k (⟨t, pys "none"⟩ : EmotionEvent)) := by
  have hne : l ++ List.replicate k (⟨t, pys "none"⟩ : EmotionEvent) ≠ [] := by
    simp [hl]
  rw [score_emotion_eq_netPenalty_form l hl, score_emotion_eq_netPenalty_form _ hne,
    netPenalty_append_none, List.length_append, List.length_replicate]
  apply round2_mono
  apply clamp_pen_mono
  · have : 0 < l.length := List.length_pos.mpr hl
    exact_mod_cast this
  · push_cast
    linarith [Nat.cast_nonneg (α := ℚ) k]

theorem round2_ten : round2 (10 : ℚ) = 10 := by
  have h := round2_ofIntCast 10
  norm_num at h
  exact h

theorem score_append_none_eventually (l : List EmotionEvent) (hl : l ≠ []) (t : ℤ) :
    ∃ K : ℕ, ∀ k, K ≤ k →
      score_emotion_face_base10 (l ++ List.replicate k (⟨t, pys "none"⟩ : EmotionEvent))
        = 10 := by
  refine ⟨(⌈(200:ℚ) * netPenalty l⌉).toNat + 1, fun k hk => ?_⟩
  have hne : l ++ List.replicate k (⟨t, pys "none"⟩ : EmotionEvent) ≠ [] := by simp [hl]
  rw [score_emotion_eq_netPenalty_form _ hne, netPenalty_append_none,
    List.length_append, List.length_replicate]
  have hd : (0:ℚ) < ((l.length + k : ℕ) : ℚ) := by
    have : 0 < l.length := List.length_pos.mpr hl
    have : 0 < l.length + k := by omega
    exact_mod_cast this
  rcases le_or_lt (netPenalty l) 0 with hP | hP
  · have hge : (10:ℚ) ≤ 10 - netPenalty l / ((l.length + k : ℕ) : ℚ) := by
      have hinv : (0:ℚ) ≤ (((l.length + k : ℕ) : ℚ))⁻¹ := inv_nonneg.mpr (le_of_lt hd)
      have hdiv : netPenalty l / ((l.length + k : ℕ) : ℚ) ≤ 0 := by
        rw [div_eq_mul_inv]
        nlinarith
      linarith
    rw [clamp10_of_ge_ten hge, round2_ten]
  · have hKbig : (200:ℚ) * netPenalty l < ((l.length + k : ℕ) : ℚ) := by
      have h1 : (200:ℚ) * netPenalty l ≤ (⌈(200:ℚ) * netPenalty l⌉ : ℚ) := Int.le_ceil _
      have h2 : ((⌈(200:ℚ) * netPenalty l⌉ : ℤ) : ℚ) ≤ (((⌈(200:ℚ) * netPenalty l⌉).toNat : ℕ) : ℚ) := by
        exact_mod_cast Int.self_le_toNat _
      have h3 : (((⌈(200:ℚ) * netPenalty l⌉).toNat + 1 : ℕ) : ℚ) ≤ (k : ℚ) := by
        exact_mod_cast hk
      have h4 : (0:ℚ) ≤ (l.length : ℚ) := by positivity
      push_cast at h2 h3 ⊢
      linarith
    have hfrac1 : 0 < netPenalty l / ((l.length + k : ℕ) : ℚ) := div_pos hP hd
    have hfrac2 : netPenalty l / ((l.length + k : ℕ) : ℚ) < 1/200 := by
      rw [div_lt_iff hd]
      linarith
    have hv2 : 10 - netPenalty l / ((l.length + k : ℕ) : ℚ) ≤ 10 := by linarith
    rw [clamp10_of_mem (by linarith) hv2]
    have hc := round2_eq_intCast_of_close (α := ℚ) (m := 10)
      (x := 10 - netPenalty l / ((l.length + k : ℕ) : ℚ))
      (by push_cast at hfrac2 ⊢; linarith) (by push_cast at hfrac1 ⊢; linarith)
    rw [hc]
    norm_num

/-! ### Claim theorems about the emotion scorer and log parser -/

/-- C2: for every event list, empty input scores exactly 7.0; otherwise the
score is the clamp to `[0, 10]` of
`10 − (1.2·r_angry + 1.0·r_disgust + 0.6·r_fear + 0.4·r_sad)·10
   + (0.15·r_happy + 0.10·r_neutral + 0.08·r_surprise)·10`
rounded to two decimals, where `r_x` is the frequency ratio of label `x` over
the total event count; and in all cases the score lies in `[0, 10]`. -/
theorem emotion_scorer_spec (l : List EmotionEvent) :
    (l = [] → score_emotion_face_base10 l = 7)
    ∧ (l ≠ [] → score_emotion_face_base10 l
        = round2 (clamp10 (10
            - (1.2 * ratioOf l (pys "angry") + 1.0 * ratioOf l (pys "disgust")
                + 0.6 * ratioOf l (pys "fear") + 0.4 * ratioOf l (pys "sad")) * 10
            + (0.15 * ratioOf l (pys "happy") + 0.10 * ratioOf l (pys "neutral")
                + 0.08 * ratioOf l (pys "surprise")) * 10)))
    ∧ 0 ≤ score_emotion_face_base10 l ∧ score_emotion_face_base10 l ≤ 10 := by
  refine ⟨fun h => by simp [score_emotion_face_base10, h],
    score_emotion_eq_ratio_form l, ?_, ?_⟩
  · by_cases h : l = []
    · simp only [score_emotion_face_base10, if_pos h]
      norm_num
    · rw [score_emotion_eq_ratio_form l h]
      exact round2_nonneg (clamp10_nonneg _)
  · by_cases h : l = []
    · simp only [score_emotion_face_base10, if_pos h]
      norm_num
    · rw [score_emotion_eq_ratio_form l h]
      exact round2_le_ten (clamp10_le_ten _)

/-- Witness for C2 at the empty list and a one-event list. -/
theorem emotion_scorer_spec_witness :
    score_emotion_face_base10 [] = 7
    ∧ score_emotion_face_base10 [⟨0, pys "angry"⟩]
        = round2 (clamp10 (10
            - (1.2 * ratioOf [⟨0, pys "angry"⟩] (pys "angry")
                + 1.0 * ratioOf [⟨0, pys "angry"⟩] (pys "disgust")
                + 0.6 * ratioOf [⟨0, pys "angry"⟩] (pys "fear")
                + 0.4 * ratioOf [⟨0, pys "angry"⟩] (pys "sad")) * 10
            + (0.15 * ratioOf [⟨0, pys "angry"⟩] (pys "happy")
                + 0.10 * ratioOf [⟨0, pys "angry"⟩] (pys "neutral")
                + 0.08 * ratioOf [⟨0, pys "angry"⟩] (pys "surprise")) * 10))
    ∧ 0 ≤ score_emotion_face_base10 [⟨0, pys "angry"⟩] :=
  ⟨(emotion_scorer_spec []).1 rfl,
   (emotion_scorer_spec [⟨0, pys "angry"⟩]).2.1 (by simp),
   (emotion_scorer_spec [⟨0, pys "angry"⟩]).2.2.1⟩

/-- C8: the scorer is monotone in the category ratios: holding the other six
fixed category ratios fixed, increasing a negative category's ratio never
increases the score and increasing a positive category's ratio never
decreases it. -/
theorem emotion_scorer_monotone (l l' : List EmotionEvent) (hl : l ≠ []) (hl' : l' ≠ []) :
    (∀ c ∈ negLabels,
      (∀ c' ∈ sevenLabels, c' ≠ c → ratioOf l' c' = ratioOf l c') →
      ratioOf l c ≤ ratioOf l' c →
      score_emotion_face_base10 l' ≤ score_emotion_face_base10 l)
    ∧ (∀ c ∈ posLabels,
      (∀ c' ∈ sevenLabels, c' ≠ c → ratioOf l' c' = ratioOf l c') →
      ratioOf l c ≤ ratioOf l' c →
      score_emotion_face_base10 l ≤ score_emotion_face_base10 l') := by
  constructor
  · intro c hc hothers hmono
    rw [score_emotion_eq_ratio_form l hl, score_emotion_eq_ratio_form l' hl']
    apply round2_mono
    apply clamp10_mono
    have hc4 : c = pys "angry" ∨ c = pys "disgust" ∨ c = pys "fear" ∨ c = pys "sad" := by
      simpa [negLabels] using hc
    rcases hc4 with rfl | rfl | rfl | rfl
    · have e1 := hothers (pys "disgust") (by decide) (by decide)
      have e2 := hothers (pys "fear") (by decide) (by decide)
      have e3 := hothers (pys "sad") (by decide) (by decide)
      have e4 := hothers (pys "happy") (by decide) (by decide)
      have e5 := hothers (pys "neutral") (by decide) (by decide)
      have e6 := hothers (pys "surprise") (by decide) (by decide)
      rw [e1, e2, e3, e4, e5, e6]
      nlinarith [hmono]
    · have e1 := hothers (pys "angry") (by decide) (by decide)
      have e2 := hothers (pys "fear") (by decide) (by decide)
      have e3 := hothers (pys "sad") (by decide) (by decide)
      have e4 := hothers (pys "happy") (by decide) (by decide)
      have e5 := hothers (pys "neutral") (by decide) (by decide)
      have e6 := hothers (pys "surprise") (by decide) (by decide)
      rw [e1, e2, e3, e4, e5, e6]
      nlinarith [hmono]
    · have e1 := hothers (pys "angry") (by decide) (by decide)
      have e2 := hothers (pys "disgust") (by decide) (by decide)
      have e3 := hothers (pys "sad") (by decide) (by decide)
      have e4 := hothers (pys "happy") (by decide) (by decide)
      have e5 := hothers (pys "neutral") (by decide) (by decide)
      have e6 := hothers (pys "surprise") (by decide) (by decide)
      rw [e1, e2, e3, e4, e5, e6]
      nlinarith [hmono]
    · have e1 := hothers (pys "angry") (by decide) (by decide)
      have e2 := hothers (pys "disgust") (by decide) (by decide)
      have e3 := hothers (pys "fear") (by decide) (by decide)
      have e4 := hothers (pys "happy") (by decide) (by decide)
      have e5 := hothers (pys "neutral") (by decide) (by decide)
      have e6 := hothers (pys "surprise") (by decide) (by decide)
      rw [e1, e2, e3, e4, e5, e6]
      nlinarith [hmono]
  · intro c hc hothers hmono
    rw [score_emotion_eq_ratio_form l hl, score_emotion_eq_ratio_form l' hl']
    apply round2_mono
    apply clamp10_mono
    have hc3 : c = pys "happy" ∨ c = pys "neutral" ∨ c = pys "surprise" := by
      simpa [posLabels] using hc
    rcases hc3 with rfl | rfl | rfl
    · have e1 := hothers (pys "angry") (by decide) (by decide)
      have e2 := hothers (pys "disgust") (by decide) (by decide)
      have e3 := hothers (pys "fear") (by decide) (by decide)
      have e4 := hothers (pys "sad") (by decide) (by decide)
      have e5 := hothers (pys "neutral") (by decide) (by decide)
      have e6 := hothers (pys "surprise") (by decide) (by decide)
      rw [e1, e2, e3, e4, e5, e6]
      nlinarith [hmono]
    · have e1 := hothers (pys "angry") (by decide) (by decide)
      have e2 := hothers (pys "disgust") (by decide) (by decide)
      have e3 := hothers (pys "fear") (by decide) (by decide)
      have e4 := hothers (pys "sad") (by decide) (by decide)
      have e5 := hothers (pys "happy") (by decide) (by decide)
      have e6 := hothers (pys "surprise") (by decide) (by decide)
      rw [e1, e2, e3, e4, e5, e6]
      nlinarith [hmono]
    · have e1 := hothers (pys "angry") (by decide) (by decide)
      have e2 := hothers (pys "disgust") (by decide) (by decide)
      have e3 := hothers (pys "fear") (by decide) (by decide)
      have e4 := hothers (pys "sad") (by decide) (by decide)
      have e5 := hothers (pys "happy") (by decide) (by decide)
      have e6 := hothers (pys "neutral") (by decide) (by decide)
      rw [e1, e2, e3, e4, e5, e6]
      nlinarith [hmono]

/-- Witness for C8: raising the angry ratio from 1/2 to 1 (the remaining mass
being unrecognized labels) lowers the score. -/
theorem emotion_scorer_monotone_witness :
    ratioOf [⟨0, pys "angry"⟩, ⟨0, pys "none"⟩] (pys "angry")
        ≤ ratioOf [⟨0, pys "angry"⟩, ⟨0, pys "angry"⟩] (pys "angry")
    ∧ score_emotion_face_base10 [⟨0, pys "angry"⟩, ⟨0, pys "angry"⟩]
        ≤ score_emotion_face_base10 [⟨0, pys "angry"⟩, ⟨0, pys "none"⟩] :=
  ⟨by
    unfold ratioOf
    rw [show List.countP (fun e => normLabel e.emotion == pys "angry")
        ([⟨0, pys "angry"⟩, ⟨0, pys "none"⟩] : List EmotionEvent) = 1 from rfl,
      show List.countP (fun e => normLabel e.emotion == pys "angry")
        ([⟨0, pys "angry"⟩, ⟨0, pys "angry"⟩] : List EmotionEvent) = 2 from rfl]
    norm_num,
   (emotion_scorer_monotone [⟨0, pys "angry"⟩, ⟨0, pys "none"⟩]
      [⟨0, pys "angry"⟩, ⟨0, pys "angry"⟩] (by simp) (by simp)).1
      (pys "angry") (by decide)
      (by
        intro c' hc' hne
        have hc7 : c' = pys "angry" ∨ c' = pys "disgust" ∨ c' = pys "fear" ∨ c' = pys "sad"
            ∨ c' = pys "happy" ∨ c' = pys "neutral" ∨ c' = pys "surprise" := by
          simpa [sevenLabels, negLabels, posLabels] using hc'
        rcases hc7 with rfl | rfl | rfl | rfl | rfl | rfl | rfl
        · exact absurd rfl hne
        · rfl
        · rfl
        · rfl
        · rfl
        · rfl
        · rfl)
      (by
        unfold ratioOf
        rw [show List.countP (fun e => normLabel e.emotion == pys "angry")
            ([⟨0, pys "angry"⟩, ⟨0, pys "none"⟩] : List EmotionEvent) = 1 from rfl,
          show List.countP (fun e => normLabel e.emotion == pys "angry")
            ([⟨0, pys "angry"⟩, ⟨0, pys "angry"⟩] : List EmotionEvent) = 2 from rfl]
        norm_num)⟩

/-- C3: events with unrecognized labels count toward the total but add no
penalty and no bonus, so a non-empty list of only unrecognized labels scores
exactly 10.0; a Log Writer no-face line (`emotion=None`) parses to an event
labelled `"none"`, so a log of only such lines scores 10.0 rather than the
7.0 no-data default; and appending `"none"` events dilutes every category
ratio and moves the score monotonically upward, eventually reaching 10. -/
theorem none_label_spec :
    (∀ l : List EmotionEvent, l ≠ [] →
      (∀ e ∈ l, normLabel e.emotion ∉ sevenLabels) →
      score_emotion_face_base10 l = 10)
    ∧ (∀ tzOff : ℤ, lineEvent tzOff noFaceLine = some ⟨noFaceTs, pys "none"⟩)
    ∧ (∀ (tzOff : ℤ) (k : ℕ), k ≠ 0 →
        parse_emotions tzOff ((List.replicate k (noFaceLine ++ [NL])).flatten)
            = List.replicate k ⟨noFaceTs, pys "none"⟩
          ∧ score_emotion_face_base10
              (parse_emotions tzOff ((List.replicate k (noFaceLine ++ [NL])).flatten)) = 10)
    ∧ (∀ (l : List EmotionEvent), l ≠ [] → ∀ (t : ℤ) (k : ℕ),
        (∀ c ∈ sevenLabels,
          ratioOf (l ++ List.replicate k (⟨t, pys "none"⟩ : EmotionEvent)) c ≤ ratioOf l c)
        ∧ score_emotion_face_base10 l
            ≤ score_emotion_face_base10 (l ++ List.replicate k (⟨t, pys "none"⟩ : EmotionEvent)))
    ∧ (∀ (l : List EmotionEvent), l ≠ [] → ∀ t : ℤ, ∃ K : ℕ, ∀ k, K ≤ k →
        score_emotion_face_base10 (l ++ List.replicate k (⟨t, pys "none"⟩ : EmotionEvent))
          = 10) := by
  refine ⟨fun l hl h => score_emotion_of_unrecognized hl h, lineEvent_noFace, ?_, ?_, ?_⟩
  · intro tzOff k hk
    refine ⟨parse_noface_log tzOff hk, ?_⟩
    rw [parse_noface_log tzOff hk]
    exact score_replicate_none hk noFaceTs
  · intro l hl t k
    exact ⟨fun c hc => ratioOf_append_none_le l hl t k c hc, score_append_none_ge l hl t k⟩
  · intro l hl t
    exact score_append_none_eventually l hl t

/-- Witness for C3 at a one-event list and a one-line log. -/
theorem none_label_spec_witness :
    score_emotion_face_base10 [⟨0, pys "asleep"⟩] = 10
    ∧ lineEvent 0 noFaceLine = some ⟨noFaceTs, pys "none"⟩
    ∧ parse_emotions 0 ((List.replicate 1 (noFaceLine ++ [NL])).flatten)
        = List.replicate 1 ⟨noFaceTs, pys "none"⟩
    ∧ score_emotion_face_base10 [⟨0, pys "angry"⟩]
        ≤ score_emotion_face_base10 ([⟨0, pys "angry"⟩] ++ List.replicate 3 (⟨0, pys "none"⟩ : EmotionEvent))
    ∧ ∃ K : ℕ, ∀ k, K ≤ k →
        score_emotion_face_base10 ([⟨0, pys "angry"⟩] ++ List.replicate k (⟨0, pys "none"⟩ : EmotionEvent))
          = 10 :=
  ⟨none_label_spec.1 [⟨0, pys "asleep"⟩] (by simp) (by
      intro e he
      simp only [List.mem_singleton] at he
      rw [he]
      exact (by decide : normLabel (pys "asleep") ∉ sevenLabels)),
   none_label_spec.2.1 0,
   (none_label_spec.2.2.1 0 1 (by decide)).1,
   (none_label_spec.2.2.2.1 [⟨0, pys "angry"⟩] (by simp) 0 3).2,
   none_label_spec.2.2.2.2 [⟨0, pys "angry"⟩] (by simp) 0⟩

/-- C6: `parse_emotions` is total (modelled as a total function built from
the per-line extractor), its output is sorted ascending by timestamp for every
input text, a line with no `emotion=` token or an unparseable first-token
timestamp is silently dropped, any produced event has a non-empty label, and
the concrete tab-separated line with an interposed token parses via the
tolerant fallback to exactly one event `(2025-01-01T00:00:00 UTC, "happy")`. -/
theorem parse_emotions_spec (tzOff : ℤ) (text : PyStr) :
    parse_emotions tzOff text
        = List.insertionSort tsLE ((pySplitlines text).filterMap (lineEvent tzOff))
    ∧ List.Pairwise tsLE (parse_emotions tzOff text)
    ∧ (∀ raw : PyStr, ¬ emoSep <:+: processedLine raw → lineEvent tzOff raw = none)
    ∧ (∀ raw : PyStr,
        parse_iso_z tzOff ((processedLine raw).takeWhile (fun c => !isPySpace c)) = none →
        lineEvent tzOff raw = none)
    ∧ (∀ (raw : PyStr) (e : EmotionEvent), lineEvent tzOff raw = some e → e.emotion ≠ [])
    ∧ parse_emotions tzOff (pys "2025-01-01T00:00:00Z\textra\temotion=happy")
        = [⟨1735689600000000, pys "happy"⟩] :=
  ⟨rfl, List.sorted_insertionSort tsLE _, lineEvent_none_of_no_emoSep tzOff,
   lineEvent_none_of_bad_ts tzOff, lineEvent_emotion_ne_nil tzOff, rfl⟩

/-- Witness for C6: concrete dropped lines and a concrete produced event. -/
theorem parse_emotions_spec_witness :
    lineEvent 0 (pys "hello world") = none
    ∧ lineEvent 0 (pys "xxx emotion=happy") = none
    ∧ pys "none" ≠ [] :=
  ⟨(parse_emotions_spec 0 []).2.2.1 (pys "hello world") (by decide),
   (parse_emotions_spec 0 []).2.2.2.1 (pys "xxx emotion=happy") (by decide),
   (parse_emotions_spec 0 []).2.2.2.2.1 (pys "2025-01-01T00:00:00Z\temotion=None\t")
     ⟨1735689600000000, pys "none"⟩ (by decide)⟩

/-! ### Transcript parsing (`parse_transcript_to_turns`) -/

/-- A parsed question/answer turn (`QATurn` dataclass). -/
structure QATurn where
  q_index : ℕ
  question : PyStr
  answer : PyStr
deriving DecidableEq, Repr

/-- Matcher for the tail `\s+\(([^)]+)\)\s*$` of the Q/A header regexes,
applied to what follows the closing bracket of `[Qn]` / `[An]`. -/
def parenTail (r : PyStr) : Bool :=
  match r with
  | c :: rest =>
    if isPySpace c then
      match rest.dropWhile isPySpace with
      | '(' :: r2 =>
        match r2.dropWhile (fun d => !(d == ')')) with
        | ')' :: r3 => !(r2.takeWhile (fun d => !(d == ')'))).isEmpty && r3.all isPySpace
        | _ => false
      | _ => false
    else false
  | [] => false

/-- Matcher for `_Q_HEADER_RE = ^\[Q(\d+)\]\s+\(([^)]+)\)\s*$`; returns the
integer group. -/
def qHeader (s : PyStr) : Option ℕ :=
  match s with
  | '[' :: 'Q' :: rest =>
    if (rest.takeWhile Char.isDigit).isEmpty then none
    else
      match rest.dropWhile Char.isDigit with
      | ']' :: r => if parenTail r then some (digitsToNat (rest.takeWhile Char.isDigit)) else none
      | _ => none
  | _ => none

/-- Matcher for `_A_HEADER_RE = ^\[A(\d+)\]\s+\(([^)]+)\)\s*$`. -/
def aHeader (s : PyStr) : Option ℕ :=
  match s with
  | '[' :: 'A' :: rest =>
    if (rest.takeWhile Char.isDigit).isEmpty then none
    else
      match rest.dropWhile Char.isDigit with
      | ']' :: r => if parenTail r then some (digitsToNat (rest.takeWhile Char.isDigit)) else none
      | _ => none
  | _ => none

/-- Matcher for `_SUMMARY_RE = ^\[Summary Q(\d+)\]\s*$`. -/
def summaryHeader (s : PyStr) : Bool :=
  if (pys "[Summary Q").isPrefixOf s then
    let rest := s.drop 10
    !(rest.takeWhile Char.isDigit).isEmpty &&
      (match rest.dropWhile Char.isDigit with
       | ']' :: r => r.all isPySpace
       | _ => false)
  else false

/-- Model of `s.startswith("-----")`. -/
def isDivider (s : PyStr) : Bool := (pys "-----").isPrefixOf s

/-- The stop predicate used when collecting a question or an answer block. -/
def stopQA (s : PyStr) : Bool :=
  (aHeader s).isSome || (qHeader s).isSome || summaryHeader s || isDivider s

/-- The stop predicate used when skipping a summary block. -/
def stopSummary (s : PyStr) : Bool :=
  isDivider s || (qHeader s).isSome || (aHeader s).isSome

/-- Model of `collect_until`: raw lines kept until a line whose stripped form
satisfies the stop predicate; returns the buffer and the remaining lines. -/
def collectUntil (stop : PyStr → Bool) : List PyStr → List PyStr × List PyStr
  | [] => ([], [])
  | ln :: rest =>
    if stop (stripPy ln) then ([], ln :: rest)
    else
      ((collectUntil stop rest).1.cons ln, (collectUntil stop rest).2)

/-- The joined and stripped text of a collected buffer:
`"\n".join(buf).strip()`. -/
def joinStrip (buf : List PyStr) : PyStr := stripPy (joinNL buf)

/-- Accumulated per-index state of the `turns` dict. -/
structure TurnAcc where
  question : Option PyStr
  answer : Option PyStr
deriving DecidableEq, Repr

/-- The accumulated dict, as an insertion-ordered association list with
distinct keys. -/
abbrev Acc := List (ℕ × TurnAcc)

/-- Model of `turns.setdefault(idx, {})["question"] = q_text`. -/
def setQ : Acc → ℕ → PyStr → Acc
  | [], i, q => [(i, ⟨some q, none⟩)]
  | (j, t) :: rest, i, q =>
    if j = i then (j, { t with question := some q }) :: rest
    else (j, t) :: setQ rest i q

/-- Model of `turns.setdefault(idx, {})["answer"] = a_text`. -/
def setA : Acc → ℕ → PyStr → Acc
  | [], i, a => [(i, ⟨none, some a⟩)]
  | (j, t) :: rest, i, a =>
    if j = i then (j, { t with answer := some a }) :: rest
    else (j, t) :: setA rest i a

/-- Model of `turns.get(idx)`. -/
def lookupAcc : Acc → ℕ → Option TurnAcc
  | [], _ => none
  | (j, t) :: rest, i => if j = i then some t else lookupAcc rest i

/-- Fuel-based worker for the main scanning loop of
`parse_transcript_to_turns`; the fuel is always at least the number of
remaining lines, so it never runs out. -/
def parseLoopAux : ℕ → List PyStr → Acc → Acc
  | 0, _, acc => acc
  | fuel + 1, lines, acc =>
    match lines with
    | [] => acc
    | ln :: rest =>
      match qHeader (stripPy ln) with
      | some idx =>
        parseLoopAux fuel (collectUntil stopQA rest).2
          (setQ acc idx (joinStrip (collectUntil stopQA rest).1))
      | none =>
        match aHeader (stripPy ln) with
        | some idx =>
          parseLoopAux fuel (collectUntil stopQA rest).2
            (setA acc idx (joinStrip (collectUntil stopQA rest).1))
        | none =>
          if summaryHeader (stripPy ln) then
            parseLoopAux fuel (collectUntil stopSummary rest).2 acc
          else
            parseLoopAux fuel rest acc

/-- The scanning loop at its canonical fuel. -/
def parseLoop (lines : List PyStr) (acc : Acc) : Acc :=
  parseLoopAux lines.length lines acc

/-- The turn emitted for one index of the accumulated dict: a turn when the
(re-stripped) question text is non-empty, with a missing answer becoming the
empty string. -/
def outEntry (acc : Acc) (idx : ℕ) : Option QATurn :=
  match lookupAcc acc idx with
  | some t =>
    if stripPy (t.question.getD []) ≠ [] then
      some ⟨idx, stripPy (t.question.getD []), stripPy (t.answer.getD [])⟩
    else none
  | none => none

/-- Model of the output stage: the emitted entries in sorted key order. -/
def outTurns (acc : Acc) : List QATurn :=
  (List.insertionSort (fun a b => a ≤ b) (acc.map Prod.fst)).filterMap (outEntry acc)

/-- Model of `ln.rstrip("\n")` (a no-op on the output of `splitlines`). -/
def rstripNLchar (l : PyStr) : PyStr := (l.reverse.dropWhile (fun c => c == NL)).reverse

/-- Model of `parse_transcript_to_turns`. -/
def parse_transcript_to_turns (text : PyStr) : List QATurn :=
  outTurns (parseLoop ((pySplitlines text).map rstripNLchar) [])

/-! ### Transcript export (`MockAgentService.export_transcript_txt`) -/

/-- One interview turn as held by the mock agent session (`MockTurn`).
`question`/`answer`/`summary` use `[]` for both Python `None` and `""` (the
export only tests truthiness); `timeStr` stands for `t.time.isoformat()`. -/
structure MockTurn where
  question : PyStr
  answer : PyStr
  timeStr : PyStr
  summary : PyStr
deriving DecidableEq, Repr

/-- The separator line `"-" * 60`. -/
def dividerLine : PyStr := List.replicate 60 '-'

/-- Fuel-based decimal digit printer (the fuel `n + 1` always suffices). -/
def natDigitsAux : ℕ → ℕ → PyStr
  | 0, _ => []
  | fuel + 1, n =>
    if n < 10 then [Char.ofNat (48 + n)]
    else natDigitsAux fuel (n / 10) ++ [Char.ofNat (48 + n % 10)]

/-- Decimal digits of a natural number, as produced by Python `f"{q_idx}"`. -/
def natDigits (n : ℕ) : PyStr := natDigitsAux (n + 1) n

/-- The exported question header `f"[Q{q_idx}] ({t.time.isoformat()}Z)"`. -/
def qHdrLine (i : ℕ) (ts : PyStr) : PyStr :=
  pys "[Q" ++ natDigits i ++ pys "] (" ++ ts ++ pys "Z)"

/-- The exported answer header `f"[A{q_idx}] ({t.time.isoformat()}Z)"`. -/
def aHdrLine (i : ℕ) (ts : PyStr) : PyStr :=
  pys "[A" ++ natDigits i ++ pys "] (" ++ ts ++ pys "Z)"

/-- The exported summary header `f"[Summary Q{q_idx}]"`. -/
def summaryHdrLine (i : ℕ) : PyStr := pys "[Summary Q" ++ natDigits i ++ pys "]"

/-- The per-turn lines appended by the export loop, threading the `q_idx`
counter exactly as the source does (incremented only on a truthy question). -/
def exportTurnLines : ℕ → List MockTurn → List PyStr
  | _, [] => []
  | qIdx, t :: ts =>
    (if t.question ≠ [] then [qHdrLine (qIdx + 1) t.timeStr, t.question, []] else [])
    ++ (if t.answer ≠ [] then
          [aHdrLine (if t.question ≠ [] then qIdx + 1 else qIdx) t.timeStr, t.answer, []]
        else [])
    ++ (if t.summary ≠ [] then
          [summaryHdrLine (if t.question ≠ [] then qIdx + 1 else qIdx), t.summary, []]
        else [])
    ++ [dividerLine]
    ++ exportTurnLines (if t.question ≠ [] then qIdx + 1 else qIdx) ts

/-- The fixed preamble lines of the export.  `roleResolved` stands for
`s.role or self._role_from_jd(s.jd_text, None)` and `exportedAt` for
`datetime.utcnow().isoformat()`. -/
def exportPreamble (sid roleResolved exportedAt : PyStr) : List PyStr :=
  [pys "=== MOCK INTERVIEW TRANSCRIPT ===",
   pys "Session: " ++ sid,
   pys "Role: " ++ roleResolved,
   pys "Exported (UTC): " ++ exportedAt ++ pys "Z",
   []]

/-- The transcript text built by `export_transcript_txt` (the file naming and
writing are out of scope; this is `content = "\n".join(lines)`). -/
def export_transcript_content (sid roleResolved exportedAt : PyStr)
    (turns : List MockTurn) : PyStr :=
  joinNL (exportPreamble sid roleResolved exportedAt ++ exportTurnLines 0 turns)

/-! ### Round-trip lemmas -/

theorem digitsToNat_concat (xs : PyStr) (c : Char) :
    digitsToNat (xs ++ [c]) = 10 * digitsToNat xs + (c.toNat - '0'.toNat) := by
  unfold digitsToNat
  rw [List.foldl_append]
  rfl

theorem digitChar_spec {d : ℕ} (hd : d < 10) :
    (Char.ofNat (48 + d)).isDigit = true ∧ (Char.ofNat (48 + d)).toNat - '0'.toNat = d := by
  interval_cases d <;> exact ⟨rfl, rfl⟩

theorem natDigitsAux_spec :
    ∀ (fuel n : ℕ), n < fuel →
      digitsToNat (natDigitsAux fuel n) = n ∧ natDigitsAux fuel n ≠ []
        ∧ ∀ c ∈ natDigitsAux fuel n, c.isDigit = true := by
  intro fuel
  induction fuel with
  | zero => intro n h; omega
  | succ fuel ih =>
    intro n h
    by_cases h10 : n < 10
    · have heq : natDigitsAux (fuel + 1) n = [Char.ofNat (48 + n)] := by
        simp [natDigitsAux, h10]
      refine ⟨?_, ?_, ?_⟩
      · rw [heq, show [Char.ofNat (48 + n)] = [] ++ [Char.ofNat (48 + n)] from rfl,
          digitsToNat_concat]
        have h2 : (Char.ofNat (48 + n)).toNat - '0'.toNat = n := (digitChar_spec h10).2
        have h3 : digitsToNat [] = 0 := rfl
        omega
      · rw [heq]
        simp
      · intro c hc
        rw [heq] at hc
        simp only [List.mem_singleton] at hc
        rw [hc]
        exact (digitChar_spec h10).1
    · have hrec : n / 10 < fuel := by omega
      obtain ⟨ih1, ih2, ih3⟩ := ih (n / 10) hrec
      have hmod : n % 10 < 10 := Nat.mod_lt _ (by norm_num)
      refine ⟨?_, ?_, ?_⟩
      · show digitsToNat (natDigitsAux (fuel + 1) n) = n
        rw [show natDigitsAux (fuel + 1) n
            = natDigitsAux fuel (n / 10) ++ [Char.ofNat (48 + n % 10)] by
          simp [natDigitsAux, h10]]
        rw [digitsToNat_concat, ih1, (digitChar_spec hmod).2]
        omega
      · rw [show natDigitsAux (fuel + 1) n
            = natDigitsAux fuel (n / 10) ++ [Char.ofNat (48 + n % 10)] by
          simp [natDigitsAux, h10]]
        simp
      · intro c hc
        rw [show natDigitsAux (fuel + 1) n
            = natDigitsAux fuel (n / 10) ++ [Char.ofNat (48 + n % 10)] by
          simp [natDigitsAux, h10]] at hc
        rcases List.mem_append.mp hc with h1 | h2
        · exact ih3 c h1
        · simp only [List.mem_singleton] at h2
          rw [h2]
          exact (digitChar_spec hmod).1

theorem natDigits_spec (n : ℕ) :
    digitsToNat (natDigits n) = n ∧ natDigits n ≠ []
      ∧ ∀ c ∈ natDigits n, c.isDigit = true :=
  natDigitsAux_spec (n + 1) n (by omega)

theorem takeWhile_append_stop (p : Char → Bool) (ds : PyStr) (y : Char) (rest : PyStr)
    (h1 : ∀ c ∈ ds, p c = true) (h2 : p y = false) :
    (ds ++ y :: rest).takeWhile p = ds ∧ (ds ++ y :: rest).dropWhile p = y :: rest := by
  induction ds with
  | nil => simp [List.takeWhile, List.dropWhile, h2]
  | cons d ds ih =>
    have hd : p d = true := h1 d (by simp)
    have hds : ∀ c ∈ ds, p c = true := fun c hc => h1 c (by simp [hc])
    obtain ⟨ih1, ih2⟩ := ih hds
    constructor
    · rw [List.cons_append, List.takeWhile_cons_of_pos hd, ih1]
    · rw [List.cons_append, List.dropWhile_cons_of_pos hd, ih2]

theorem parenTail_good (ts : PyStr) (hts : ∀ c ∈ ts, ¬c = ')') :
    parenTail (' ' :: '(' :: (ts ++ pys "Z)")) = true := by
  have hstep : parenTail (' ' :: '(' :: (ts ++ pys "Z)"))
      = (match (ts ++ pys "Z)").dropWhile (fun d => !(d == ')')) with
        | ')' :: r3 =>
          !((ts ++ pys "Z)").takeWhile (fun d => !(d == ')'))).isEmpty && r3.all isPySpace
        | _ => false) := rfl
  have hsplit := takeWhile_append_stop (fun d => !(d == ')')) (ts ++ ['Z']) ')' []
    (fun c hc => by
      rcases List.mem_append.mp hc with h1 | h2
      · simp [hts c h1]
      · simp only [List.mem_singleton] at h2
        rw [h2]; decide)
    (by decide)
  have hshape : ts ++ pys "Z)" = (ts ++ ['Z']) ++ ')' :: [] := by simp [pys]
  rw [hstep, hshape, hsplit.2, hsplit.1]
  show (!(ts ++ ['Z']).isEmpty && List.all [] isPySpace) = true
  simp

theorem qHeader_cons_eq (rest : PyStr) :
    qHeader ('[' :: 'Q' :: rest)
      = if (rest.takeWhile Char.isDigit).isEmpty then none
        else
          match rest.dropWhile Char.isDigit with
          | ']' :: r =>
            if parenTail r then some (digitsToNat (rest.takeWhile Char.isDigit)) else none
          | _ => none := rfl

theorem aHeader_cons_eq (rest : PyStr) :
    aHeader ('[' :: 'A' :: rest)
      = if (rest.takeWhile Char.isDigit).isEmpty then none
        else
          match rest.dropWhile Char.isDigit with
          | ']' :: r =>
            if parenTail r then some (digitsToNat (rest.takeWhile Char.isDigit)) else none
          | _ => none := rfl

theorem qHeader_qHdrLine (i : ℕ) (ts : PyStr) (hts : ∀ c ∈ ts, ¬c = ')') :
    qHeader (qHdrLine i ts) = some i := by
  have hshape : qHdrLine i ts
      = '[' :: 'Q' :: (natDigits i ++ ']' :: (' ' :: '(' :: (ts ++ pys "Z)"))) := by
    simp [qHdrLine, pys]
  rw [hshape]
  obtain ⟨hval, hne, hdig⟩ := natDigits_spec i
  have hsplit := takeWhile_append_stop Char.isDigit (natDigits i) ']'
    (' ' :: '(' :: (ts ++ pys "Z)")) hdig (by decide)
  rw [qHeader_cons_eq, hsplit.1, hsplit.2, if_neg (by simp [hne])]
  show (if parenTail (' ' :: '(' :: (ts ++ pys "Z)")) = true
      then some (digitsToNat (natDigits i)) else none) = some i
  rw [if_pos (parenTail_good ts hts), hval]

theorem aHeader_aHdrLine (i : ℕ) (ts : PyStr) (hts : ∀ c ∈ ts, ¬c = ')') :
    aHeader (aHdrLine i ts) = some i := by
  have hshape : aHdrLine i ts
      = '[' :: 'A' :: (natDigits i ++ ']' :: (' ' :: '(' :: (ts ++ pys "Z)"))) := by
    simp [aHdrLine, pys]
  rw [hshape]
  obtain ⟨hval, hne, hdig⟩ := natDigits_spec i
  have hsplit := takeWhile_append_stop Char.isDigit (natDigits i) ']'
    (' ' :: '(' :: (ts ++ pys "Z)")) hdig (by decide)
  rw [aHeader_cons_eq, hsplit.1, hsplit.2, if_neg (by simp [hne])]
  show (if parenTail (' ' :: '(' :: (ts ++ pys "Z)")) = true
      then some (digitsToNat (natDigits i)) else none) = some i
  rw [if_pos (parenTail_good ts hts), hval]

theorem qHeader_aHdrLine (i : ℕ) (ts : PyStr) : qHeader (aHdrLine i ts) = none := rfl

theorem aHeader_qHdrLine (i : ℕ) (ts : PyStr) : aHeader (qHdrLine i ts) = none := rfl

theorem summaryHeader_qHdrLine (i : ℕ) (ts : PyStr) :
    summaryHeader (qHdrLine i ts) = false := rfl

theorem summaryHeader_aHdrLine (i : ℕ) (ts : PyStr) :
    summaryHeader (aHdrLine i ts) = false := rfl

theorem isDivider_qHdrLine (i : ℕ) (ts : PyStr) : isDivider (qHdrLine i ts) = false := rfl

theorem isDivider_aHdrLine (i : ℕ) (ts : PyStr) : isDivider (aHdrLine i ts) = false := rfl

theorem lstripPy_eq_self {l : PyStr} (h : ∀ c, l.head? = some c → isPySpace c = false) :
    lstripPy l = l := by
  unfold lstripPy
  rcases l with _ | ⟨c, rest⟩
  · rfl
  · rw [List.dropWhile_cons_of_neg (by simp [h c rfl])]

theorem rstripPy_eq_self {l : PyStr} (h : ∀ c, l.getLast? = some c → isPySpace c = false) :
    rstripPy l = l := by
  unfold rstripPy
  rcases hrev : l.reverse with _ | ⟨c, rest⟩
  · have : l = [] := by simpa using congrArg List.reverse hrev
    rw [this]
    rfl
  · have hc : l.getLast? = some c := by
      rw [← List.head?_reverse, hrev]
      rfl
    rw [List.dropWhile_cons_of_neg (by simp [h c hc]), ← hrev, List.reverse_reverse]

theorem stripPy_eq_self {l : PyStr}
    (hh : ∀ c, l.head? = some c → isPySpace c = false)
    (hl : ∀ c, l.getLast? = some c → isPySpace c = false) : stripPy l = l := by
  unfold stripPy
  rw [lstripPy_eq_self hh, rstripPy_eq_self hl]

theorem getLast?_qHdrLine (i : ℕ) (ts : PyStr) : (qHdrLine i ts).getLast? = some ')' := by
  have : qHdrLine i ts = (pys "[Q" ++ natDigits i ++ pys "] (" ++ ts ++ ['Z']) ++ [')'] := by
    simp [qHdrLine, pys]
  rw [this, List.getLast?_concat]

theorem getLast?_aHdrLine (i : ℕ) (ts : PyStr) : (aHdrLine i ts).getLast? = some ')' := by
  have : aHdrLine i ts = (pys "[A" ++ natDigits i ++ pys "] (" ++ ts ++ ['Z']) ++ [')'] := by
    simp [aHdrLine, pys]
  rw [this, List.getLast?_concat]

theorem stripPy_qHdrLine (i : ℕ) (ts : PyStr) : stripPy (qHdrLine i ts) = qHdrLine i ts := by
  apply stripPy_eq_self
  · intro c hc
    rw [show (qHdrLine i ts).head? = some '[' from rfl] at hc
    simp only [Option.some.injEq] at hc
    rw [← hc]
    decide
  · intro c hc
    rw [getLast?_qHdrLine] at hc
    simp only [Option.some.injEq] at hc
    rw [← hc]
    decide

theorem stripPy_aHdrLine (i : ℕ) (ts : PyStr) : stripPy (aHdrLine i ts) = aHdrLine i ts := by
  apply stripPy_eq_self
  · intro c hc
    rw [show (aHdrLine i ts).head? = some '[' from rfl] at hc
    simp only [Option.some.injEq] at hc
    rw [← hc]
    decide
  · intro c hc
    rw [getLast?_aHdrLine] at hc
    simp only [Option.some.injEq] at hc
    rw [← hc]
    decide

theorem not_mem_NL_splitNL : ∀ (s : PyStr), ∀ p ∈ splitNL s, NL ∉ p := by
  intro s
  induction s with
  | nil =>
    intro p hp
    simp [splitNL] at hp
    simp [hp]
  | cons c cs ih =>
    intro p hp
    by_cases hc : c = NL
    · subst hc
      rw [splitNL_cons_newline] at hp
      rcases List.mem_cons.mp hp with h1 | h2
      · simp [h1]
      · exact ih p h2
    · rw [splitNL_cons_ne hc] at hp
      rcases hcs : splitNL cs with _ | ⟨l, ls⟩
      · exact absurd hcs (splitNL_ne_nil cs)
      · rw [hcs] at hp
        rcases List.mem_cons.mp hp with h1 | h2
        · subst h1
          intro hmem
          rcases List.mem_cons.mp hmem with h3 | h4
          · exact hc h3.symm
          · exact ih l (by rw [hcs]; simp) h4
        · exact ih p (by rw [hcs]; simp [h2])

theorem joinNL_cons_cons (l l' : PyStr) (ls : List PyStr) :
    joinNL (l :: l' :: ls) = l ++ NL :: joinNL (l' :: ls) := rfl

theorem joinNL_cons_head (c : Char) (l : PyStr) (ls : List PyStr) :
    joinNL ((c :: l) :: ls) = c :: joinNL (l :: ls) := by
  rcases ls with _ | ⟨l', ls⟩
  · rfl
  · rfl

theorem joinNL_splitNL : ∀ (s : PyStr), joinNL (splitNL s) = s := by
  intro s
  induction s with
  | nil => rfl
  | cons c cs ih =>
    by_cases hc : c = NL
    · subst hc
      rw [splitNL_cons_newline]
      rcases hcs : splitNL cs with _ | ⟨l, ls⟩
      · exact absurd hcs (splitNL_ne_nil cs)
      · rw [show joinNL ([] :: l :: ls) = [] ++ NL :: joinNL (l :: ls) from rfl]
        rw [← hcs, ih]
        rfl
    · rw [splitNL_cons_ne hc]
      rcases hcs : splitNL cs with _ | ⟨l, ls⟩
      · exact absurd hcs (splitNL_ne_nil cs)
      · rw [joinNL_cons_head, ← hcs, ih]

theorem joinNL_concat_ne (ls : List PyStr) (d : PyStr) (hd : d ≠ []) :
    joinNL (ls ++ [d]) ≠ [] ∧ (joinNL (ls ++ [d])).getLast? = d.getLast? := by
  induction ls with
  | nil => exact ⟨hd, rfl⟩
  | cons l ls ih =>
    have hne : ls ++ [d] ≠ [] := by simp
    rcases hshape : ls ++ [d] with _ | ⟨x, xs⟩
    · exact absurd hshape hne
    · constructor
      · rw [List.cons_append, hshape, joinNL_cons_cons]
        simp
      · rw [List.cons_append, hshape, joinNL_cons_cons, List.getLast?_append_cons]
        have h2 : (NL :: joinNL (x :: xs)).getLast? = (joinNL (x :: xs)).getLast? := by
          rcases hj : joinNL (x :: xs) with _ | ⟨y, ys⟩
          · exfalso
            apply ih.1
            rw [hshape, hj]
          · rw [List.getLast?_cons_cons]
        rw [h2, ← hshape, ih.2]

theorem joinNL_append_nilElem (xs : List PyStr) (hxs : xs ≠ []) :
    joinNL (xs ++ [[]]) = joinNL xs ++ [NL] := by
  induction xs with
  | nil => exact absurd rfl hxs
  | cons l ls ih =>
    rcases ls with _ | ⟨l', ls'⟩
    · rfl
    · have h1 : (l :: l' :: ls') ++ [[]] = l :: l' :: (ls' ++ [[]]) := rfl
      have h2 : (l' :: ls') ++ [[]] = l' :: (ls' ++ [[]]) := rfl
      rw [h1, joinNL_cons_cons, ← h2, ih (by simp), joinNL_cons_cons]
      simp

theorem dropWhile_eq_self_head {p : Char → Bool} {l : PyStr} (h : l.dropWhile p = l) :
    ∀ c, l.head? = some c → p c = false := by
  intro c hc
  rcases l with _ | ⟨c0, rest⟩
  · simp at hc
  · simp only [List.head?_cons, Option.some.injEq] at hc
    subst hc
    by_contra hp
    rw [List.dropWhile_cons_of_pos (by simpa using hp)] at h
    have hlen := congrArg List.length h
    have hle := (List.dropWhile_sublist (l := rest) p).length_le
    simp at hlen
    omega

theorem strip_parts_of_stripPy_eq {q : PyStr} (h : stripPy q = q) :
    lstripPy q = q ∧ rstripPy q = q := by
  have h1 : (lstripPy q).length ≤ q.length := (List.dropWhile_sublist _).length_le
  have h2 : (stripPy q).length ≤ (lstripPy q).length := by
    unfold stripPy rstripPy
    have := (List.dropWhile_sublist (l := (lstripPy q).reverse) isPySpace).length_le
    simpa using this
  rw [h] at h2
  have hls : lstripPy q = q := by
    have hsub : lstripPy q <:+ q := List.dropWhile_suffix _
    exact hsub.sublist.eq_of_length (le_antisymm h1 h2)
  refine ⟨hls, ?_⟩
  have : rstripPy q = stripPy q := by
    unfold stripPy
    rw [hls]
  rw [this, h]

theorem stripPy_append_NL {q : PyStr} (hq : stripPy q = q) (hne : q ≠ []) :
    stripPy (q ++ [NL]) = q := by
  obtain ⟨hls, hrs⟩ := strip_parts_of_stripPy_eq hq
  have hhead : ∀ c, q.head? = some c → isPySpace c = false :=
    dropWhile_eq_self_head hls
  unfold stripPy lstripPy
  have hstep1 : (q ++ [NL]).dropWhile isPySpace = q ++ [NL] := by
    rcases q with _ | ⟨c, rest⟩
    · exact absurd rfl hne
    · rw [List.cons_append, List.dropWhile_cons_of_neg (by simp [hhead c rfl])]
  rw [hstep1]
  unfold rstripPy
  rw [List.reverse_append]
  have : ([NL].reverse : PyStr) = [NL] := rfl
  rw [this]
  rw [show ([NL] : PyStr) ++ q.reverse = NL :: q.reverse from rfl]
  rw [List.dropWhile_cons_of_pos (by decide)]
  have hq2 : q.reverse.dropWhile isPySpace = q.reverse := by
    have := congrArg List.reverse hrs
    unfold rstripPy at this
    rw [List.reverse_reverse] at this
    exact this
  rw [hq2, List.reverse_reverse]

theorem collectUntil_length (stop : PyStr → Bool) :
    ∀ l : List PyStr, (collectUntil stop l).2.length ≤ l.length := by
  intro l
  induction l with
  | nil => simp [collectUntil]
  | cons ln rest ih =>
    unfold collectUntil
    split
    · simp
    · simpa using Nat.le_succ_of_le ih

theorem collectUntil_spec (stop : PyStr → Bool) (xs : List PyStr) (y : PyStr)
    (ys : List PyStr) (hxs : ∀ x ∈ xs, stop (stripPy x) = false)
    (hy : stop (stripPy y) = true) :
    collectUntil stop (xs ++ y :: ys) = (xs, y :: ys) := by
  induction xs with
  | nil =>
    rw [List.nil_append]
    unfold collectUntil
    rw [if_pos hy]
  | cons x xs ih =>
    have hx : stop (stripPy x) = false := hxs x (by simp)
    rw [List.cons_append]
    unfold collectUntil
    rw [if_neg (by simp [hx])]
    rw [ih (fun a ha => hxs a (by simp [ha]))]

theorem collectUntil_nil_of_all (stop : PyStr → Bool) (xs : List PyStr)
    (hxs : ∀ x ∈ xs, stop (stripPy x) = false) :
    collectUntil stop xs = (xs, []) := by
  induction xs with
  | nil => rfl
  | cons x xs ih =>
    unfold collectUntil
    rw [if_neg (by simp [hxs x (by simp)])]
    rw [ih (fun a ha => hxs a (by simp [ha]))]

theorem parseLoopAux_cons (f : ℕ) (ln : PyStr) (rest : List PyStr) (acc : Acc) :
    parseLoopAux (f + 1) (ln :: rest) acc
      = match qHeader (stripPy ln) with
        | some idx =>
          parseLoopAux f (collectUntil stopQA rest).2
            (setQ acc idx (joinStrip (collectUntil stopQA rest).1))
        | none =>
          match aHeader (stripPy ln) with
          | some idx =>
            parseLoopAux f (collectUntil stopQA rest).2
              (setA acc idx (joinStrip (collectUntil stopQA rest).1))
          | none =>
            if summaryHeader (stripPy ln) then
              parseLoopAux f (collectUntil stopSummary rest).2 acc
            else
              parseLoopAux f rest acc := rfl

theorem parseLoopAux_eq_parseLoop :
    ∀ (f : ℕ) (lines : List PyStr) (acc : Acc), lines.length ≤ f →
      parseLoopAux f lines acc = parseLoop lines acc := by
  intro f
  induction f using Nat.strong_induction_on with
  | _ f ih =>
    intro lines acc hlen
    match f, lines with
    | 0, [] => rfl
    | f + 1, [] => rfl
    | 0, ln :: rest => simp at hlen
    | f + 1, ln :: rest =>
      have hr : rest.length ≤ f := by
        simp only [List.length_cons] at hlen
        omega
      show parseLoopAux (f + 1) (ln :: rest) acc
          = parseLoopAux (rest.length + 1) (ln :: rest) acc
      rw [parseLoopAux_cons, parseLoopAux_cons]
      rcases hq : qHeader (stripPy ln) with _ | i
      · rcases ha : aHeader (stripPy ln) with _ | i
        · dsimp only
          by_cases hs : summaryHeader (stripPy ln)
          · rw [if_pos hs, if_pos hs]
            have hc := collectUntil_length stopSummary rest
            rw [ih f (by omega) _ _ (le_trans hc hr),
              ih rest.length (by omega) _ _ hc]
          · rw [if_neg hs, if_neg hs]
            rw [ih f (by omega) _ _ hr, ih rest.length (by omega) _ _ le_rfl]
        · dsimp only
          have hc := collectUntil_length stopQA rest
          rw [ih f (by omega) _ _ (le_trans hc hr),
            ih rest.length (by omega) _ _ hc]
      · dsimp only
        have hc := collectUntil_length stopQA rest
        rw [ih f (by omega) _ _ (le_trans hc hr),
          ih rest.length (by omega) _ _ hc]

theorem parseLoop_cons_q {ln : PyStr} {i : ℕ} (rest : List PyStr) (acc : Acc)
    (h : qHeader (stripPy ln) = some i) :
    parseLoop (ln :: rest) acc
      = parseLoop (collectUntil stopQA rest).2
          (setQ acc i (joinStrip (collectUntil stopQA rest).1)) := by
  show parseLoopAux (rest.length + 1) (ln :: rest) acc = _
  rw [parseLoopAux_cons, h]
  exact parseLoopAux_eq_parseLoop rest.length _ _ (collectUntil_length _ _)

theorem parseLoop_cons_a {ln : PyStr} {i : ℕ} (rest : List PyStr) (acc : Acc)
    (hq : qHeader (stripPy ln) = none) (h : aHeader (stripPy ln) = some i) :
    parseLoop (ln :: rest) acc
      = parseLoop (collectUntil stopQA rest).2
          (setA acc i (joinStrip (collectUntil stopQA rest).1)) := by
  show parseLoopAux (rest.length + 1) (ln :: rest) acc = _
  rw [parseLoopAux_cons, hq, h]
  exact parseLoopAux_eq_parseLoop rest.length _ _ (collectUntil_length _ _)

theorem parseLoop_cons_skip {ln : PyStr} (rest : List PyStr) (acc : Acc)
    (hq : qHeader (stripPy ln) = none) (ha : aHeader (stripPy ln) = none)
    (hs : summaryHeader (stripPy ln) = false) :
    parseLoop (ln :: rest) acc = parseLoop rest acc := by
  show parseLoopAux (rest.length + 1) (ln :: rest) acc = _
  rw [parseLoopAux_cons, hq, ha, if_neg (by rw [hs]; exact Bool.false_ne_true)]
  exact parseLoopAux_eq_parseLoop rest.length _ _ le_rfl

theorem parseLoop_nil (acc : Acc) : parseLoop [] acc = acc := rfl

theorem qHeader_cons_ne {c : Char} (rest : PyStr) (hc : c ≠ '[') :
    qHeader (c :: rest) = none := by
  unfold qHeader
  split
  · rename_i heq
    rw [List.cons.injEq] at heq
    exact absurd heq.1 hc
  · rfl

theorem aHeader_cons_ne {c : Char} (rest : PyStr) (hc : c ≠ '[') :
    aHeader (c :: rest) = none := by
  unfold aHeader
  split
  · rename_i heq
    rw [List.cons.injEq] at heq
    exact absurd heq.1 hc
  · rfl

theorem isPrefixOf_cons_ne {a c : Char} (as rest : PyStr) (h : a ≠ c) :
    (a :: as).isPrefixOf (c :: rest) = false := by
  show ((a == c) && as.isPrefixOf rest) = false
  rw [beq_eq_false_iff_ne.mpr h, Bool.false_and]

theorem summaryHeader_cons_ne {c : Char} (rest : PyStr) (hc : c ≠ '[') :
    summaryHeader (c :: rest) = false := by
  have hpre : (pys "[Summary Q").isPrefixOf (c :: rest) = false :=
    isPrefixOf_cons_ne _ _ (fun h => hc h.symm)
  unfold summaryHeader
  rw [if_neg (by simp [hpre])]

theorem isDivider_cons_ne {c : Char} (rest : PyStr) (hc : c ≠ '-') :
    isDivider (c :: rest) = false := by
  unfold isDivider
  exact isPrefixOf_cons_ne _ _ (fun h => hc h.symm)

theorem stopQA_cons_ne {c : Char} (rest : PyStr) (hc1 : c ≠ '[') (hc2 : c ≠ '-') :
    stopQA (c :: rest) = false := by
  unfold stopQA
  rw [qHeader_cons_ne rest hc1, aHeader_cons_ne rest hc1, summaryHeader_cons_ne rest hc1,
    isDivider_cons_ne rest hc2]
  rfl

theorem rstripPy_cons_of_neg {c : Char} (hc : isPySpace c = false) (l : PyStr) :
    rstripPy (c :: l) = c :: rstripPy l := by
  unfold rstripPy
  rw [List.reverse_cons, List.dropWhile_append]
  rcases hdw : l.reverse.dropWhile isPySpace with _ | ⟨z, zs⟩
  · simp [hc]
  · simp

theorem stripPy_cons_of_neg {c : Char} (hc : isPySpace c = false) (l : PyStr) :
    stripPy (c :: l) = c :: rstripPy l := by
  unfold stripPy lstripPy
  rw [List.dropWhile_cons_of_neg (by simp [hc]), rstripPy_cons_of_neg hc]

theorem headers_skip_of_cons {c : Char} {l r : PyStr}
    (hs : stripPy l = c :: r) (hc : c ≠ '[') :
    qHeader (stripPy l) = none ∧ aHeader (stripPy l) = none
      ∧ summaryHeader (stripPy l) = false := by
  rw [hs]
  exact ⟨qHeader_cons_ne r hc, aHeader_cons_ne r hc, summaryHeader_cons_ne r hc⟩

theorem isDigit_ne_NL {c : Char} (h : c.isDigit = true) : c ≠ NL := by
  intro he
  subst he
  exact absurd h (by decide)

theorem isDigit_ne_rparen {c : Char} (h : c.isDigit = true) : ¬c = ')' := by
  intro he
  subst he
  exact absurd h (by decide)

theorem NL_not_mem_qHdrLine (i : ℕ) (ts : PyStr) (hts : NL ∉ ts) :
    NL ∉ qHdrLine i ts := by
  unfold qHdrLine
  intro hmem
  simp only [List.mem_append] at hmem
  rcases hmem with (((h1 | h2) | h3) | h4) | h5
  · exact absurd h1 (by decide)
  · exact isDigit_ne_NL ((natDigits_spec i).2.2 NL h2) rfl
  · exact absurd h3 (by decide)
  · exact hts h4
  · exact absurd h5 (by decide)

theorem NL_not_mem_aHdrLine (i : ℕ) (ts : PyStr) (hts : NL ∉ ts) :
    NL ∉ aHdrLine i ts := by
  unfold aHdrLine
  intro hmem
  simp only [List.mem_append] at hmem
  rcases hmem with (((h1 | h2) | h3) | h4) | h5
  · exact absurd h1 (by decide)
  · exact isDigit_ne_NL ((natDigits_spec i).2.2 NL h2) rfl
  · exact absurd h3 (by decide)
  · exact hts h4
  · exact absurd h5 (by decide)

theorem setQ_fresh (acc : Acc) (i : ℕ) (q : PyStr)
    (h : ∀ k ∈ acc.map Prod.fst, k ≠ i) :
    setQ acc i q = acc ++ [(i, ⟨some q, none⟩)] := by
  induction acc with
  | nil => rfl
  | cons p rest ih =>
    rcases p with ⟨j, t⟩
    unfold setQ
    rw [if_neg (h j (by simp)), ih (fun k hk => h k (by simp [hk]))]
    rfl

theorem setA_last (acc : Acc) (i : ℕ) (q : Option PyStr) (a : PyStr)
    (h : ∀ k ∈ acc.map Prod.fst, k ≠ i) :
    setA (acc ++ [(i, ⟨q, none⟩)]) i a = acc ++ [(i, ⟨q, some a⟩)] := by
  induction acc with
  | nil =>
    show setA [(i, ⟨q, none⟩)] i a = [(i, ⟨q, some a⟩)]
    unfold setA
    rw [if_pos rfl]
  | cons p rest ih =>
    rcases p with ⟨j, t⟩
    show setA ((j, t) :: (rest ++ [(i, ⟨q, none⟩)])) i a = _
    unfold setA
    rw [if_neg (h j (by simp)), ih (fun k hk => h k (by simp [hk]))]
    rfl

theorem lookupAcc_append_right (acc : Acc) (rest : Acc) (i : ℕ)
    (h : ∀ k ∈ acc.map Prod.fst, k ≠ i) :
    lookupAcc (acc ++ rest) i = lookupAcc rest i := by
  induction acc with
  | nil => rfl
  | cons p acc ih =>
    rcases p with ⟨j, t⟩
    show (if j = i then some t else lookupAcc (acc ++ rest) i) = lookupAcc rest i
    rw [if_neg (h j (by simp)), ih (fun k hk => h k (by simp [hk]))]

/-- The side conditions under which one exported turn survives the
parser's round trip unchanged. -/
def goodTurn (t : MockTurn) : Prop :=
  t.question ≠ [] ∧ t.answer ≠ [] ∧ t.summary = [] ∧
  stripPy t.question = t.question ∧ stripPy t.answer = t.answer ∧
  (∀ p ∈ splitNL t.question, stopQA (stripPy p) = false) ∧
  (∀ p ∈ splitNL t.answer, stopQA (stripPy p) = false) ∧
  NL ∉ t.timeStr ∧ (∀ c ∈ t.timeStr, ¬c = ')')

instance (t : MockTurn) : Decidable (goodTurn t) := by
  unfold goodTurn
  infer_instance

/-- The accumulator state produced by parsing the exported blocks of a list
of good turns, numbered from `base + 1`. -/
def accOf : ℕ → List MockTurn → Acc
  | _, [] => []
  | base, t :: ts => (base + 1, ⟨some t.question, some t.answer⟩) :: accOf (base + 1) ts

/-- The turns that a faithful round trip is expected to produce. -/
def expectedTurns : ℕ → List MockTurn → List QATurn
  | _, [] => []
  | base, t :: ts => ⟨base + 1, t.question, t.answer⟩ :: expectedTurns (base + 1) ts

theorem accOf_keys_gt :
    ∀ (base : ℕ) (ts : List MockTurn), ∀ k ∈ (accOf base ts).map Prod.fst, base < k := by
  intro base ts
  induction ts generalizing base with
  | nil => intro k hk; simp [accOf] at hk
  | cons t ts ih =>
    intro k hk
    rw [show accOf base (t :: ts)
        = (base + 1, ⟨some t.question, some t.answer⟩) :: accOf (base + 1) ts from rfl] at hk
    simp only [List.map_cons, List.mem_cons] at hk
    rcases hk with h1 | h2
    · omega
    · have := ih (base + 1) k h2
      omega

theorem accOf_sorted (base : ℕ) (ts : List MockTurn) :
    ((accOf base ts).map Prod.fst).Sorted (fun a b : ℕ => a ≤ b) := by
  induction ts generalizing base with
  | nil => exact List.sorted_nil
  | cons t ts ih =>
    rw [show (accOf base (t :: ts)).map Prod.fst
        = (base + 1) :: (accOf (base + 1) ts).map Prod.fst from rfl]
    exact List.Pairwise.cons
      (fun k hk => Nat.le_of_lt (accOf_keys_gt (base + 1) ts k hk)) (ih (base + 1))

theorem exportTurnLines_good (base : ℕ) (t : MockTurn) (ts : List MockTurn)
    (h : goodTurn t) :
    exportTurnLines base (t :: ts)
      = [qHdrLine (base + 1) t.timeStr, t.question, [],
         aHdrLine (base + 1) t.timeStr, t.answer, [],
         dividerLine] ++ exportTurnLines (base + 1) ts := by
  obtain ⟨hq, ha, hs, _⟩ := h
  show (if t.question ≠ [] then _ else _) ++ _ ++ _ ++ _ ++ _ = _
  rw [if_pos hq]
  simp [hq, ha, hs]

theorem exportTurnLines_last (ts : List MockTurn) :
    ∀ (base : ℕ) (t : MockTurn), goodTurn t → (∀ u ∈ ts, goodTurn u) →
      ∃ ls, exportTurnLines base (t :: ts) = ls ++ [dividerLine] := by
  induction ts with
  | nil =>
    intro base t ht _
    rw [exportTurnLines_good base t [] ht]
    refine ⟨[qHdrLine (base + 1) t.timeStr, t.question, [],
      aHdrLine (base + 1) t.timeStr, t.answer, []], ?_⟩
    show _ ++ exportTurnLines (base + 1) [] = _
    simp [exportTurnLines]
  | cons u us ih =>
    intro base t ht hus
    rw [exportTurnLines_good base t (u :: us) ht]
    obtain ⟨ls, hls⟩ := ih (base + 1) u (hus u (by simp)) (fun v hv => hus v (by simp [hv]))
    refine ⟨[qHdrLine (base + 1) t.timeStr, t.question, [],
      aHdrLine (base + 1) t.timeStr, t.answer, [], dividerLine] ++ ls, ?_⟩
    rw [hls]
    simp

theorem rstripNLchar_of_not_mem {l : PyStr} (h : NL ∉ l) : rstripNLchar l = l := by
  unfold rstripNLchar
  rcases hrev : l.reverse with _ | ⟨c, cs⟩
  · have : l = [] := by simpa using congrArg List.reverse hrev
    rw [this]
    rfl
  · have hc : c ∈ l := by
      rw [← List.mem_reverse, hrev]
      simp
    have hcne : ¬((c == NL) = true) := by
      simp only [beq_iff_eq]
      exact fun he => h (he ▸ hc)
    rw [List.dropWhile_cons_of_neg (p := fun d => d == NL) hcne, ← hrev,
      List.reverse_reverse]

theorem map_rstripNLchar_flatMap (L : List PyStr) :
    (L.flatMap splitNL).map rstripNLchar = L.flatMap splitNL := by
  have h : ∀ x ∈ L.flatMap splitNL, rstripNLchar x = x := by
    intro x hx
    rw [List.mem_flatMap] at hx
    obtain ⟨l, _, hxl⟩ := hx
    exact rstripNLchar_of_not_mem (not_mem_NL_splitNL l x hxl)
  calc (L.flatMap splitNL).map rstripNLchar
      = (L.flatMap splitNL).map id := List.map_congr_left h
    _ = L.flatMap splitNL := List.map_id _

theorem flatMap_preamble (sid role ea : PyStr)
    (h1 : NL ∉ sid) (h2 : NL ∉ role) (h3 : NL ∉ ea) :
    (exportPreamble sid role ea).flatMap splitNL = exportPreamble sid role ea := by
  unfold exportPreamble
  simp only [List.flatMap_cons, List.flatMap_nil]
  rw [splitNL_of_not_mem (by decide),
    splitNL_of_not_mem (s := pys "Session: " ++ sid) (fun hm => by
      rcases List.mem_append.mp hm with ha | hb
      · exact absurd ha (by decide)
      · exact h1 hb),
    splitNL_of_not_mem (s := pys "Role: " ++ role) (fun hm => by
      rcases List.mem_append.mp hm with ha | hb
      · exact absurd ha (by decide)
      · exact h2 hb),
    splitNL_of_not_mem (s := pys "Exported (UTC): " ++ ea ++ pys "Z") (fun hm => by
      rcases List.mem_append.mp hm with hab | hc
      · rcases List.mem_append.mp hab with ha | hb
        · exact absurd ha (by decide)
        · exact h3 hb
      · exact absurd hc (by decide))]
  rfl

theorem parseLoop_skip_line {ln : PyStr} {c : Char} {r : PyStr}
    (hs : stripPy ln = c :: r) (hc : c ≠ '[') (rest : List PyStr) (acc : Acc) :
    parseLoop (ln :: rest) acc = parseLoop rest acc := by
  obtain ⟨h1, h2, h3⟩ := headers_skip_of_cons hs hc
  exact parseLoop_cons_skip rest acc h1 h2 h3

theorem parseLoop_skip_empty (rest : List PyStr) (acc : Acc) :
    parseLoop (([] : PyStr) :: rest) acc = parseLoop rest acc :=
  parseLoop_cons_skip rest acc (by decide) (by decide) (by decide)

theorem parseLoop_preamble (sid role ea : PyStr) (rest : List PyStr) (acc : Acc) :
    parseLoop (exportPreamble sid role ea ++ rest) acc = parseLoop rest acc := by
  show parseLoop (pys "=== MOCK INTERVIEW TRANSCRIPT ==="
    :: (pys "Session: " ++ sid) :: (pys "Role: " ++ role)
    :: (pys "Exported (UTC): " ++ ea ++ pys "Z") :: ([] : PyStr) :: rest) acc
      = parseLoop rest acc
  rw [parseLoop_skip_line
      (by decide : stripPy (pys "=== MOCK INTERVIEW TRANSCRIPT ===")
        = '=' :: pys "== MOCK INTERVIEW TRANSCRIPT ===") (by decide),
    parseLoop_skip_line
      (show stripPy (pys "Session: " ++ sid) = 'S' :: rstripPy (pys "ession: " ++ sid) from
        stripPy_cons_of_neg (by decide) _) (by decide),
    parseLoop_skip_line
      (show stripPy (pys "Role: " ++ role) = 'R' :: rstripPy (pys "ole: " ++ role) from
        stripPy_cons_of_neg (by decide) _) (by decide),
    parseLoop_skip_line
      (show stripPy (pys "Exported (UTC): " ++ ea ++ pys "Z")
          = 'E' :: rstripPy (pys "xported (UTC): " ++ ea ++ pys "Z") from
        stripPy_cons_of_neg (by decide) _) (by decide),
    parseLoop_skip_empty]

theorem joinStrip_split (q : PyStr) (hsq : stripPy q = q) (hq : q ≠ []) :
    joinStrip (splitNL q ++ [[]]) = q := by
  unfold joinStrip
  rw [joinNL_append_nilElem _ (splitNL_ne_nil q), joinNL_splitNL, stripPy_append_NL hsq hq]

theorem stopQA_aHdrLine (i : ℕ) (ts : PyStr) (hts : ∀ c ∈ ts, ¬c = ')') :
    stopQA (stripPy (aHdrLine i ts)) = true := by
  rw [stripPy_aHdrLine]
  unfold stopQA
  rw [aHeader_aHdrLine i ts hts]
  rfl

theorem parseLoop_block (base : ℕ) (t : MockTurn) (R : List PyStr) (acc : Acc)
    (h : goodTurn t) (hkeys : ∀ k ∈ acc.map Prod.fst, k ≤ base) :
    parseLoop
      (qHdrLine (base + 1) t.timeStr
        :: (splitNL t.question ++ ([] : PyStr) :: aHdrLine (base + 1) t.timeStr
        :: (splitNL t.answer ++ ([] : PyStr) :: dividerLine :: R))) acc
      = parseLoop R (acc ++ [(base + 1, ⟨some t.question, some t.answer⟩)]) := by
  obtain ⟨hq, ha, hs, hsq, hsa, hnq, hna, hnlts, hrpts⟩ := h
  have hfresh : ∀ k ∈ acc.map Prod.fst, k ≠ (base + 1) :=
    fun k hk => by have := hkeys k hk; omega
  rw [parseLoop_cons_q _ _ (by rw [stripPy_qHdrLine]; exact qHeader_qHdrLine _ _ hrpts)]
  have hsh1 : splitNL t.question ++ ([] : PyStr) :: aHdrLine (base + 1) t.timeStr
        :: (splitNL t.answer ++ ([] : PyStr) :: dividerLine :: R)
      = (splitNL t.question ++ [([] : PyStr)]) ++ aHdrLine (base + 1) t.timeStr
        :: (splitNL t.answer ++ ([] : PyStr) :: dividerLine :: R) := by
    simp
  rw [hsh1, collectUntil_spec stopQA _ _ _
    (fun x hx => by
      rcases List.mem_append.mp hx with h1 | h2
      · exact hnq x h1
      · simp only [List.mem_singleton] at h2
        rw [h2]
        decide)
    (stopQA_aHdrLine _ _ hrpts)]
  rw [show ((splitNL t.question ++ [([] : PyStr)]),
      aHdrLine (base + 1) t.timeStr
        :: (splitNL t.answer ++ ([] : PyStr) :: dividerLine :: R)).2
      = aHdrLine (base + 1) t.timeStr
        :: (splitNL t.answer ++ ([] : PyStr) :: dividerLine :: R) from rfl]
  rw [show ((splitNL t.question ++ [([] : PyStr)]),
      aHdrLine (base + 1) t.timeStr
        :: (splitNL t.answer ++ ([] : PyStr) :: dividerLine :: R)).1
      = splitNL t.question ++ [([] : PyStr)] from rfl]
  rw [joinStrip_split t.question hsq hq, setQ_fresh acc (base + 1) t.question hfresh]
  rw [parseLoop_cons_a _ _
    (by rw [stripPy_aHdrLine]; exact qHeader_aHdrLine _ _)
    (by rw [stripPy_aHdrLine]; exact aHeader_aHdrLine _ _ hrpts)]
  have hsh2 : splitNL t.answer ++ ([] : PyStr) :: dividerLine :: R
      = (splitNL t.answer ++ [([] : PyStr)]) ++ dividerLine :: R := by
    simp
  rw [hsh2, collectUntil_spec stopQA _ _ _
    (fun x hx => by
      rcases List.mem_append.mp hx with h1 | h2
      · exact hna x h1
      · simp only [List.mem_singleton] at h2
        rw [h2]
        decide)
    (by decide : stopQA (stripPy dividerLine) = true)]
  rw [show ((splitNL t.answer ++ [([] : PyStr)]), dividerLine :: R).2
      = dividerLine :: R from rfl]
  rw [show ((splitNL t.answer ++ [([] : PyStr)]), dividerLine :: R).1
      = splitNL t.answer ++ [([] : PyStr)] from rfl]
  rw [joinStrip_split t.answer hsa ha, setA_last acc (base + 1) (some t.question) t.answer hfresh]
  rw [parseLoop_cons_skip _ _ (by decide) (by decide) (by decide)]

theorem parseLoop_blocks (ts : List MockTurn) :
    ∀ (base : ℕ) (acc : Acc), (∀ t ∈ ts, goodTurn t) →
      (∀ k ∈ acc.map Prod.fst, k ≤ base) →
      parseLoop ((exportTurnLines base ts).flatMap splitNL) acc = acc ++ accOf base ts := by
  induction ts with
  | nil =>
    intro base acc _ _
    show parseLoop [] acc = acc ++ []
    rw [parseLoop_nil, List.append_nil]
  | cons t ts ih =>
    intro base acc hgood hkeys
    have ht := hgood t (by simp)
    obtain ⟨hq, ha, hs, hsq, hsa, hnq, hna, hnlts, hrpts⟩ := ht
    rw [exportTurnLines_good base t ts (hgood t (by simp))]
    have hflat : ([qHdrLine (base + 1) t.timeStr, t.question, [],
          aHdrLine (base + 1) t.timeStr, t.answer, [], dividerLine]
          ++ exportTurnLines (base + 1) ts).flatMap splitNL
        = qHdrLine (base + 1) t.timeStr
          :: (splitNL t.question ++ ([] : PyStr) :: aHdrLine (base + 1) t.timeStr
          :: (splitNL t.answer ++ ([] : PyStr) :: dividerLine
          :: (exportTurnLines (base + 1) ts).flatMap splitNL)) := by
      rw [List.flatMap_append]
      simp only [List.flatMap_cons, List.flatMap_nil]
      rw [splitNL_of_not_mem (NL_not_mem_qHdrLine (base + 1) t.timeStr hnlts),
        splitNL_of_not_mem (NL_not_mem_aHdrLine (base + 1) t.timeStr hnlts),
        splitNL_of_not_mem (by decide : NL ∉ dividerLine)]
      simp [show splitNL ([] : PyStr) = [[]] from rfl]
    rw [hflat,
      parseLoop_block base t _ acc (hgood t (by simp)) hkeys,
      ih (base + 1) _ (fun u hu => hgood u (by simp [hu]))
        (fun k hk => by
          rw [List.map_append, List.mem_append] at hk
          rcases hk with h1 | h2
          · have := hkeys k h1
            omega
          · simp at h2
            omega)]
    rw [show accOf base (t :: ts)
      = (base + 1, ⟨some t.question, some t.answer⟩) :: accOf (base + 1) ts from rfl]
    simp

theorem filterMap_lookup_congr (acc acc' : Acc) (keys : List ℕ)
    (h : ∀ k ∈ keys, lookupAcc acc k = lookupAcc acc' k) :
    keys.filterMap (outEntry acc) = keys.filterMap (outEntry acc') := by
  apply List.filterMap_congr
  intro k hk
  unfold outEntry
  rw [h k hk]

theorem outTurns_accOf :
    ∀ (ts : List MockTurn) (base : ℕ), (∀ t ∈ ts, goodTurn t) →
      outTurns (accOf base ts) = expectedTurns base ts := by
  intro ts
  induction ts with
  | nil => intro base _; rfl
  | cons t ts ih =>
    intro base hgood
    obtain ⟨hq, ha, hs, hsq, hsa, _⟩ := hgood t (by simp)
    unfold outTurns
    rw [(accOf_sorted base (t :: ts)).insertionSort_eq]
    rw [show (accOf base (t :: ts)).map Prod.fst
      = (base + 1) :: (accOf (base + 1) ts).map Prod.fst from rfl]
    rw [List.filterMap_cons]
    have hl : lookupAcc (accOf base (t :: ts)) (base + 1)
        = some ⟨some t.question, some t.answer⟩ := by
      show (if base + 1 = base + 1 then some (⟨some t.question, some t.answer⟩ : TurnAcc)
        else lookupAcc (accOf (base + 1) ts) (base + 1)) = _
      rw [if_pos rfl]
    have hf : outEntry (accOf base (t :: ts)) (base + 1)
        = some ⟨base + 1, t.question, t.answer⟩ := by
      unfold outEntry
      rw [hl]
      show (if stripPy t.question ≠ [] then
          some (⟨base + 1, stripPy t.question, stripPy t.answer⟩ : QATurn)
        else none) = _
      rw [hsq, hsa, if_pos hq]
    rw [hf]
    have hlook : ∀ k ∈ (accOf (base + 1) ts).map Prod.fst,
        lookupAcc (accOf base (t :: ts)) k = lookupAcc (accOf (base + 1) ts) k := by
      intro k hk
      have hgt := accOf_keys_gt (base + 1) ts k hk
      show (if base + 1 = k then some (⟨some t.question, some t.answer⟩ : TurnAcc)
        else lookupAcc (accOf (base + 1) ts) k) = _
      rw [if_neg (by omega)]
    rw [show expectedTurns base (t :: ts)
      = ⟨base + 1, t.question, t.answer⟩ :: expectedTurns (base + 1) ts from rfl]
    rw [filterMap_lookup_congr (accOf base (t :: ts)) (accOf (base + 1) ts) _ hlook]
    have h2 := ih (base + 1) (fun u hu => hgood u (by simp [hu]))
    unfold outTurns at h2
    rw [(accOf_sorted (base + 1) ts).insertionSort_eq] at h2
    rw [h2]

/-- C7: for a session whose turns satisfy the `goodTurn` side conditions
(non-empty strip-normalized question and answer whose lines do not collide
with the parser's header/divider patterns, no summary, and a benign
timestamp), and whose session id, role, and export time contain no newline,
the transcript text produced by `export_transcript_txt` parses back through
`parse_transcript_to_turns` to exactly one turn per exported turn, numbered
`1..N` in order, with question and answer texts identical to the serialized
ones.  (The unconditional round-trip claimed by the specification is false:
see the counterexample below.) -/
theorem transcript_roundtrip (sid role ea : PyStr) (turns : List MockTurn)
    (hsid : NL ∉ sid) (hrole : NL ∉ role) (hea : NL ∉ ea)
    (hgood : ∀ t ∈ turns, goodTurn t) :
    parse_transcript_to_turns (export_transcript_content sid role ea turns)
      = expectedTurns 0 turns := by
  unfold parse_transcript_to_turns export_transcript_content
  have hm2 : NL ∉ pys "Session: " ++ sid := fun hm => by
    rcases List.mem_append.mp hm with ha | hb
    · exact absurd ha (by decide)
    · exact hsid hb
  have hm3 : NL ∉ pys "Role: " ++ role := fun hm => by
    rcases List.mem_append.mp hm with ha | hb
    · exact absurd ha (by decide)
    · exact hrole hb
  have hm4 : NL ∉ pys "Exported (UTC): " ++ ea ++ pys "Z" := fun hm => by
    rcases List.mem_append.mp hm with hab | hc
    · rcases List.mem_append.mp hab with ha | hb
      · exact absurd ha (by decide)
      · exact hea hb
    · exact absurd hc (by decide)
  rcases turns with _ | ⟨t0, ts0⟩
  · rw [show exportTurnLines 0 ([] : List MockTurn) = [] from rfl, List.append_nil]
    rw [show exportPreamble sid role ea
      = [pys "=== MOCK INTERVIEW TRANSCRIPT ===", pys "Session: " ++ sid,
         pys "Role: " ++ role, pys "Exported (UTC): " ++ ea ++ pys "Z"]
        ++ [([] : PyStr)] from rfl]
    rw [joinNL_append_nilElem _ (by simp)]
    have h1 : joinNL [pys "=== MOCK INTERVIEW TRANSCRIPT ===", pys "Session: " ++ sid,
        pys "Role: " ++ role, pys "Exported (UTC): " ++ ea ++ pys "Z"] ++ [NL] ≠ [] := by
      simp
    have h2 : (joinNL [pys "=== MOCK INTERVIEW TRANSCRIPT ===", pys "Session: " ++ sid,
        pys "Role: " ++ role, pys "Exported (UTC): " ++ ea ++ pys "Z"] ++ [NL]).getLast?
        = some NL := List.getLast?_concat _
    unfold pySplitlines
    rw [if_neg h1, if_pos h2]
    rw [show joinNL [pys "=== MOCK INTERVIEW TRANSCRIPT ===", pys "Session: " ++ sid,
        pys "Role: " ++ role, pys "Exported (UTC): " ++ ea ++ pys "Z"] ++ [NL]
      = joinNL [pys "=== MOCK INTERVIEW TRANSCRIPT ===", pys "Session: " ++ sid,
        pys "Role: " ++ role, pys "Exported (UTC): " ++ ea ++ pys "Z"] ++ NL :: [] from rfl]
    rw [splitNL_append_newline, splitNL_joinNL]
    simp only [List.flatMap_cons, List.flatMap_nil]
    rw [splitNL_of_not_mem (by decide : NL ∉ pys "=== MOCK INTERVIEW TRANSCRIPT ==="),
      splitNL_of_not_mem hm2, splitNL_of_not_mem hm3, splitNL_of_not_mem hm4,
      show splitNL ([] : PyStr) = [([] : PyStr)] from rfl]
    simp only [List.append_nil, List.cons_append, List.nil_append]
    rw [show ([pys "=== MOCK INTERVIEW TRANSCRIPT ===", pys "Session: " ++ sid,
        pys "Role: " ++ role, pys "Exported (UTC): " ++ ea ++ pys "Z",
        ([] : PyStr)]).dropLast
      = [pys "=== MOCK INTERVIEW TRANSCRIPT ===", pys "Session: " ++ sid,
        pys "Role: " ++ role, pys "Exported (UTC): " ++ ea ++ pys "Z"]
      from rfl]
    simp only [List.map_cons, List.map_nil]
    rw [rstripNLchar_of_not_mem (by decide), rstripNLchar_of_not_mem hm2,
      rstripNLchar_of_not_mem hm3, rstripNLchar_of_not_mem hm4]
    rw [parseLoop_skip_line
        (by decide : stripPy (pys "=== MOCK INTERVIEW TRANSCRIPT ===")
          = '=' :: pys "== MOCK INTERVIEW TRANSCRIPT ===") (by decide),
      parseLoop_skip_line
        (show stripPy (pys "Session: " ++ sid) = 'S' :: rstripPy (pys "ession: " ++ sid) from
          stripPy_cons_of_neg (by decide) _) (by decide),
      parseLoop_skip_line
        (show stripPy (pys "Role: " ++ role) = 'R' :: rstripPy (pys "ole: " ++ role) from
          stripPy_cons_of_neg (by decide) _) (by decide),
      parseLoop_skip_line
        (show stripPy (pys "Exported (UTC): " ++ ea ++ pys "Z")
            = 'E' :: rstripPy (pys "xported (UTC): " ++ ea ++ pys "Z") from
          stripPy_cons_of_neg (by decide) _) (by decide)]
    rfl
  · have hgt0 := hgood t0 (by simp)
    obtain ⟨ls, hls⟩ := exportTurnLines_last ts0 0 t0 hgt0 (fun v hv => hgood v (by simp [hv]))
    have hPT : exportPreamble sid role ea ++ exportTurnLines 0 (t0 :: ts0)
        = pys "=== MOCK INTERVIEW TRANSCRIPT ==="
          :: ((pys "Session: " ++ sid) :: (pys "Role: " ++ role)
          :: (pys "Exported (UTC): " ++ ea ++ pys "Z") :: ([] : PyStr)
          :: exportTurnLines 0 (t0 :: ts0)) := rfl
    have hcat : exportPreamble sid role ea ++ exportTurnLines 0 (t0 :: ts0)
        = (exportPreamble sid role ea ++ ls) ++ [dividerLine] := by
      rw [hls, ← List.append_assoc]
    have h1 : joinNL (exportPreamble sid role ea ++ exportTurnLines 0 (t0 :: ts0)) ≠ [] := by
      rw [hcat]
      exact (joinNL_concat_ne _ _ (by decide)).1
    have h2 : (joinNL (exportPreamble sid role ea
        ++ exportTurnLines 0 (t0 :: ts0))).getLast? ≠ some NL := by
      rw [hcat, (joinNL_concat_ne _ _ (by decide)).2]
      decide
    rw [show pySplitlines (joinNL (exportPreamble sid role ea
          ++ exportTurnLines 0 (t0 :: ts0)))
        = (exportPreamble sid role ea ++ exportTurnLines 0 (t0 :: ts0)).flatMap splitNL from by
      rw [hPT] at h1 h2 ⊢
      rw [pySplitlines_joinNL _ _ h1 h2, ← hPT]]
    rw [map_rstripNLchar_flatMap, List.flatMap_append,
      flatMap_preamble sid role ea hsid hrole hea, parseLoop_preamble,
      parseLoop_blocks (t0 :: ts0) 0 [] hgood (by simp), List.nil_append]
    exact outTurns_accOf (t0 :: ts0) 0 hgood

theorem transcript_roundtrip_witness :
    parse_transcript_to_turns (export_transcript_content (pys "sid-1") (pys "developer")
      (pys "2025-01-01T00:00:00")
      [⟨pys "Tell me about yourself.", pys "I am a developer.", pys "09:00:00", []⟩])
      = expectedTurns 0
          [⟨pys "Tell me about yourself.", pys "I am a developer.", pys "09:00:00", []⟩] :=
  transcript_roundtrip _ _ _ _ (by decide) (by decide) (by decide) (by decide)

/-- The unconditional round-trip stated by the specification fails: an answer
whose text begins with five dashes is mistaken for a divider line by the
parser, so it comes back as the empty string instead of the serialized text. -/
theorem transcript_roundtrip_cex :
    parse_transcript_to_turns (export_transcript_content (pys "s") (pys "r") (pys "e")
        [⟨pys "q", pys "----- my answer", pys "t", []⟩])
      = [⟨1, pys "q", []⟩]
    ∧ pys "----- my answer" ≠ [] := by
  constructor
  · decide
  · decide

theorem setQ_keys (acc : Acc) (i : ℕ) (q : PyStr) :
    (setQ acc i q).map Prod.fst
      = if i ∈ acc.map Prod.fst then acc.map Prod.fst else acc.map Prod.fst ++ [i] := by
  induction acc with
  | nil => simp [setQ]
  | cons p rest ih =>
    rcases p with ⟨j, t⟩
    by_cases hji : j = i
    · subst hji
      rw [show setQ ((j, t) :: rest) j q = (j, { t with question := some q }) :: rest from by
        unfold setQ; rw [if_pos rfl]]
      simp
    · rw [show setQ ((j, t) :: rest) i q = (j, t) :: setQ rest i q from by
        show (if j = i then (j, { t with question := some q }) :: rest
          else (j, t) :: setQ rest i q) = _
        rw [if_neg hji]]
      rw [List.map_cons, ih, List.map_cons]
      by_cases hmem : i ∈ rest.map Prod.fst
      · rw [if_pos hmem, if_pos (by simp [hmem])]
      · rw [if_neg hmem, if_neg (by simp [hmem, Ne.symm hji])]
        rfl

theorem setA_keys (acc : Acc) (i : ℕ) (a : PyStr) :
    (setA acc i a).map Prod.fst
      = if i ∈ acc.map Prod.fst then acc.map Prod.fst else acc.map Prod.fst ++ [i] := by
  induction acc with
  | nil => simp [setA]
  | cons p rest ih =>
    rcases p with ⟨j, t⟩
    by_cases hji : j = i
    · subst hji
      rw [show setA ((j, t) :: rest) j a = (j, { t with answer := some a }) :: rest from by
        unfold setA; rw [if_pos rfl]]
      simp
    · rw [show setA ((j, t) :: rest) i a = (j, t) :: setA rest i a from by
        show (if j = i then (j, { t with answer := some a }) :: rest
          else (j, t) :: setA rest i a) = _
        rw [if_neg hji]]
      rw [List.map_cons, ih, List.map_cons]
      by_cases hmem : i ∈ rest.map Prod.fst
      · rw [if_pos hmem, if_pos (by simp [hmem])]
      · rw [if_neg hmem, if_neg (by simp [hmem, Ne.symm hji])]
        rfl

theorem setQ_keys_nodup {acc : Acc} (h : (acc.map Prod.fst).Nodup) (i : ℕ) (q : PyStr) :
    ((setQ acc i q).map Prod.fst).Nodup := by
  rw [setQ_keys]
  by_cases hmem : i ∈ acc.map Prod.fst
  · rw [if_pos hmem]
    exact h
  · rw [if_neg hmem]
    exact List.Nodup.append h (by simp) (by simp [List.disjoint_singleton, hmem])

theorem setA_keys_nodup {acc : Acc} (h : (acc.map Prod.fst).Nodup) (i : ℕ) (a : PyStr) :
    ((setA acc i a).map Prod.fst).Nodup := by
  rw [setA_keys]
  by_cases hmem : i ∈ acc.map Prod.fst
  · rw [if_pos hmem]
    exact h
  · rw [if_neg hmem]
    exact List.Nodup.append h (by simp) (by simp [List.disjoint_singleton, hmem])

theorem parseLoopAux_keys_nodup :
    ∀ (f : ℕ) (lines : List PyStr) (acc : Acc),
      (acc.map Prod.fst).Nodup → ((parseLoopAux f lines acc).map Prod.fst).Nodup := by
  intro f
  induction f with
  | zero => intro lines acc h; exact h
  | succ f ih =>
    intro lines acc h
    rcases lines with _ | ⟨ln, rest⟩
    · exact h
    · rw [parseLoopAux_cons]
      rcases hq : qHeader (stripPy ln) with _ | i
      · rcases ha : aHeader (stripPy ln) with _ | i
        · dsimp only
          by_cases hs : summaryHeader (stripPy ln)
          · rw [if_pos hs]
            exact ih _ _ h
          · rw [if_neg hs]
            exact ih _ _ h
        · dsimp only
          exact ih _ _ (setA_keys_nodup h i _)
      · dsimp only
        exact ih _ _ (setQ_keys_nodup h i _)

theorem lookupAcc_mem {acc : Acc} {i : ℕ} {t : TurnAcc} (h : lookupAcc acc i = some t) :
    i ∈ acc.map Prod.fst := by
  induction acc with
  | nil => exact absurd h (by simp [lookupAcc])
  | cons p rest ih =>
    rcases p with ⟨j, u⟩
    rw [show lookupAcc ((j, u) :: rest) i = if j = i then some u else lookupAcc rest i
      from rfl] at h
    by_cases hji : j = i
    · simp [hji]
    · rw [if_neg hji] at h
      simp [ih h]

theorem map_qidx_filterMap_sublist (f : ℕ → Option QATurn)
    (h : ∀ i u, f i = some u → u.q_index = i) :
    ∀ l : List ℕ, ((l.filterMap f).map QATurn.q_index).Sublist l := by
  intro l
  induction l with
  | nil => simp
  | cons i l ih =>
    rw [List.filterMap_cons]
    rcases hf : f i with _ | u
    · exact ih.cons i
    · rw [List.map_cons, h i u hf]
      exact ih.cons₂ i

/-- C10: every turn produced by `parse_transcript_to_turns` has non-empty
question text; the turn indices are strictly increasing; and an index whose
question header was recorded without a matching answer block is emitted with
the empty string as its answer.  The model is a total function, reflecting
that parsing never raises. -/
theorem parse_transcript_to_turns_spec (text : PyStr) :
    (∀ u ∈ parse_transcript_to_turns text, u.question ≠ [])
    ∧ ((parse_transcript_to_turns text).map QATurn.q_index).Sorted (fun a b => a < b)
    ∧ ∀ (idx : ℕ) (q : PyStr),
        lookupAcc (parseLoop ((pySplitlines text).map rstripNLchar) []) idx
          = some ⟨some q, none⟩ →
        stripPy q ≠ [] →
        (⟨idx, stripPy q, []⟩ : QATurn) ∈ parse_transcript_to_turns text := by
  refine ⟨?_, ?_, ?_⟩
  · intro u hu
    unfold parse_transcript_to_turns outTurns at hu
    rw [List.mem_filterMap] at hu
    obtain ⟨idx, _, hf⟩ := hu
    unfold outEntry at hf
    split at hf
    · split at hf
      · rename_i t heq hcond
        rw [Option.some.injEq] at hf
        rw [← hf]
        exact hcond
      · exact absurd hf (by simp)
    · exact absurd hf (by simp)
  · unfold parse_transcript_to_turns outTurns
    have hnodup : ((parseLoop ((pySplitlines text).map rstripNLchar) []).map
        Prod.fst).Nodup :=
      parseLoopAux_keys_nodup _ _ [] (by simp)
    have hperm := List.perm_insertionSort (fun a b : ℕ => a ≤ b)
      ((parseLoop ((pySplitlines text).map rstripNLchar) []).map Prod.fst)
    have hnodup2 := hperm.nodup_iff.mpr hnodup
    have hsorted := List.sorted_insertionSort (fun a b : ℕ => a ≤ b)
      ((parseLoop ((pySplitlines text).map rstripNLchar) []).map Prod.fst)
    have hlt : (List.insertionSort (fun a b : ℕ => a ≤ b)
        ((parseLoop ((pySplitlines text).map rstripNLchar) []).map
          Prod.fst)).Pairwise (fun a b : ℕ => a < b) := by
      have hand := List.Pairwise.and hsorted hnodup2
      exact hand.imp (fun hab => lt_of_le_of_ne hab.1 hab.2)
    have hsub := map_qidx_filterMap_sublist
      (outEntry (parseLoop ((pySplitlines text).map rstripNLchar) []))
      (fun i u hf => by
        unfold outEntry at hf
        split at hf
        · split at hf
          · rw [Option.some.injEq] at hf
            rw [← hf]
          · exact absurd hf (by simp)
        · exact absurd hf (by simp))
      (List.insertionSort (fun a b : ℕ => a ≤ b)
        ((parseLoop ((pySplitlines text).map rstripNLchar) []).map Prod.fst))
    exact hlt.sublist hsub
  · intro idx q hl hq
    unfold parse_transcript_to_turns outTurns
    rw [List.mem_filterMap]
    refine ⟨idx, ?_, ?_⟩
    · have hmem := lookupAcc_mem hl
      exact ((List.perm_insertionSort (fun a b : ℕ => a ≤ b) _).mem_iff).mpr hmem
    · unfold outEntry
      rw [hl]
      show (if stripPy q ≠ [] then
          some (⟨idx, stripPy q, stripPy ((none : Option PyStr).getD [])⟩ : QATurn)
        else none) = _
      rw [if_pos hq]
      rfl

theorem parse_transcript_to_turns_spec_witness :
    (⟨1, stripPy (pys "What is Python?"), []⟩ : QATurn)
      ∈ parse_transcript_to_turns (pys "[Q1] (09:00:00Z)\nWhat is Python?") :=
  (parse_transcript_to_turns_spec (pys "[Q1] (09:00:00Z)\nWhat is Python?")).2.2
    1 (pys "What is Python?") (by decide) (by decide)

/-! ### Data sufficiency (`apply_data_sufficiency`) -/

/-- `ratio = min(1.0, n_valid / MIN_REQUIRED)` with `MIN_REQUIRED = 10`. -/
noncomputable def ratioN (n : ℕ) : ℝ := min 1 ((n : ℝ) / 10)

/-- `coverage = ratio ** P` with `P = 1.8`. -/
noncomputable def coverageN (n : ℕ) : ℝ := ratioN n ^ (1.8 : ℝ)

/-- `BONUS_MAX * (1.0 - math.exp(-(n_valid - MIN_REQUIRED) / K))` with
`BONUS_MAX = 0.8`, `K = 10`. -/
noncomputable def bonusN (n : ℕ) : ℝ := 0.8 * (1 - Real.exp (-((n : ℝ) - 10) / 10))

/-- `(w_k + w_a) or 1.0`: Python `or` falls back on a zero float. -/
noncomputable def totalW (w_k w_a : ℝ) : ℝ := if w_k + w_a = 0 then 1 else w_k + w_a

/-- Model of `apply_data_sufficiency` (the returned `detail` dict is out of
scope; the three rounded scores are returned). -/
noncomputable def apply_data_sufficiency (ks ats w_k w_a : ℝ) (n : ℕ) : ℝ × ℝ × ℝ :=
  if 10 < n then
    (round2 (min 10 (clamp10 (ks * coverageN n) + bonusN n * (w_k / totalW w_k w_a))),
     round2 (min 10 (clamp10 (ats * coverageN n) + bonusN n * (w_a / totalW w_k w_a))),
     round2 (clamp10
       (min 10 (clamp10 (ks * coverageN n) + bonusN n * (w_k / totalW w_k w_a)) * w_k
        + min 10 (clamp10 (ats * coverageN n) + bonusN n * (w_a / totalW w_k w_a)) * w_a)))
  else
    (round2 (clamp10 (ks * coverageN n)),
     round2 (clamp10 (ats * coverageN n)),
     round2 (clamp10 (clamp10 (ks * coverageN n) * w_k + clamp10 (ats * coverageN n) * w_a)))

theorem coverageN_zero : coverageN 0 = 0 := by
  unfold coverageN ratioN
  rw [show min (1 : ℝ) (((0 : ℕ) : ℝ) / 10) = 0 by norm_num]
  exact Real.zero_rpow (by norm_num)

theorem coverageN_ten : coverageN 10 = 1 := by
  unfold coverageN ratioN
  rw [show min (1 : ℝ) (((10 : ℕ) : ℝ) / 10) = 1 by norm_num]
  exact Real.one_rpow _

theorem round2_zero {α : Type} [LinearOrderedField α] [FloorRing α] :
    round2 (0 : α) = 0 := by
  unfold round2
  rw [mul_zero, show (0 : α) = ((0 : ℤ) : α) by norm_num, rheInt_intCast]
  norm_num

theorem bonusN_twenty : bonusN 20 = 0.8 * (1 - Real.exp (-1)) := by
  unfold bonusN
  norm_num

theorem bonusN_pos_lt {n : ℕ} (h : 10 < n) : 0 < bonusN n ∧ bonusN n < 0.8 := by
  unfold bonusN
  have hneg : -(((n : ℝ)) - 10) / 10 < 0 := by
    have : (10 : ℝ) < (n : ℝ) := by exact_mod_cast h
    nlinarith
  have hlt1 : Real.exp (-((n : ℝ) - 10) / 10) < 1 := by
    rw [show (1 : ℝ) = Real.exp 0 from (Real.exp_zero).symm]
    exact Real.exp_lt_exp.mpr hneg
  have hpos := Real.exp_pos (-((n : ℝ) - 10) / 10)
  constructor
  · nlinarith
  · nlinarith

/-- C4: with no valid answers the adjusted scores and final are all zero;
with exactly ten, coverage is one, the bonus branch is skipped and each raw
score in `[0,10]` comes back (rounded) unchanged, the final being the
clamped weighted sum; with twenty, the bonus equals `0.8·(1 − e⁻¹)`; for any
count over ten the bonus is strictly between `0` and `0.8` and is split
between the two scores proportionally to `w_k` and `w_a`, each capped at
`10`, the adjusted final being the clamped weighted sum of the two adjusted
scores. -/
theorem apply_data_sufficiency_spec (ks ats w_k w_a : ℝ) (n : ℕ)
    (hks0 : 0 ≤ ks) (hks10 : ks ≤ 10) (hats0 : 0 ≤ ats) (hats10 : ats ≤ 10) :
    apply_data_sufficiency ks ats w_k w_a 0 = (0, 0, 0)
    ∧ coverageN 10 = 1
    ∧ apply_data_sufficiency ks ats w_k w_a 10
        = (round2 ks, round2 ats, round2 (clamp10 (ks * w_k + ats * w_a)))
    ∧ bonusN 20 = 0.8 * (1 - Real.exp (-1))
    ∧ (10 < n → 0 < bonusN n ∧ bonusN n < 0.8)
    ∧ (10 < n → w_k + w_a ≠ 0 →
        apply_data_sufficiency ks ats w_k w_a n
          = (round2 (min 10 (clamp10 (ks * coverageN n) + bonusN n * (w_k / (w_k + w_a)))),
             round2 (min 10 (clamp10 (ats * coverageN n) + bonusN n * (w_a / (w_k + w_a)))),
             round2 (clamp10
               (min 10 (clamp10 (ks * coverageN n)
                  + bonusN n * (w_k / (w_k + w_a))) * w_k
                + min 10 (clamp10 (ats * coverageN n)
                  + bonusN n * (w_a / (w_k + w_a))) * w_a)))) := by
  have hcl : ∀ x : ℝ, 0 ≤ x → x ≤ 10 → clamp10 x = x := fun x h1 h2 => clamp10_of_mem h1 h2
  refine ⟨?_, coverageN_ten, ?_, bonusN_twenty, fun h => bonusN_pos_lt h, ?_⟩
  · unfold apply_data_sufficiency
    rw [if_neg (by norm_num), coverageN_zero]
    rw [mul_zero, mul_zero, show clamp10 (0 : ℝ) = 0 from hcl 0 le_rfl (by norm_num)]
    rw [zero_mul, zero_mul, add_zero,
      show clamp10 (0 : ℝ) = 0 from hcl 0 le_rfl (by norm_num), round2_zero]
  · unfold apply_data_sufficiency
    rw [if_neg (by norm_num), coverageN_ten, mul_one, mul_one,
      hcl ks hks0 hks10, hcl ats hats0 hats10]
  · intro hn hw
    unfold apply_data_sufficiency totalW
    rw [if_pos hn, if_neg hw]

theorem apply_data_sufficiency_spec_witness :
    apply_data_sufficiency 8 6 (6 / 10) (4 / 10) 0 = (0, 0, 0)
    ∧ 0 < bonusN 20 ∧ bonusN 20 < 0.8 :=
  ⟨(apply_data_sufficiency_spec 8 6 (6 / 10) (4 / 10) 20
      (by norm_num) (by norm_num) (by norm_num) (by norm_num)).1,
   (apply_data_sufficiency_spec 8 6 (6 / 10) (4 / 10) 20
      (by norm_num) (by norm_num) (by norm_num) (by norm_num)).2.2.2.2.1 (by norm_num)⟩

/-! ### Total fusion (`compute_total_patched`) -/

/-- The numeric fields of `AgentScores` (the `explanation` dict is out of
scope). -/
structure AgentScoresV (α : Type) where
  knowledge_score : α
  attitude_score : α
  agent_final_score : α
deriving DecidableEq, Repr

/-- The numeric fields of the dict returned by `compute_total_patched`
(the `detail` dict is out of scope). -/
structure TotalResult (α : Type) where
  emotion_face_score : α
  knowledge_score : Option α
  attitude_score : Option α
  agent_final_score : Option α
  total_score : Option α
deriving DecidableEq, Repr

/-- Model of `compute_total_patched`. -/
def compute_total_patched {α : Type} [LinearOrderedField α] [FloorRing α]
    (emotion_face_score : α) (agent_scores : Option (AgentScoresV α))
    (w_agent_final w_emotion : α) : TotalResult α :=
  match agent_scores with
  | none => ⟨round2 emotion_face_score, none, none, none, none⟩
  | some a =>
    ⟨round2 emotion_face_score, some a.knowledge_score, some a.attitude_score,
     some (round2 (clamp10 a.agent_final_score)),
     some (round2 (clamp10
       (clamp10 a.agent_final_score * w_agent_final
        + emotion_face_score * w_emotion)))⟩

/-- C5: when agent scores are present and the agent final score is already in
`[0,10]`, the fused total is the weighted sum clamped to `[0,10]` and rounded
to two decimals; when they are absent every qualitative field and the total
are `None`; and at the documented weights `0.65`/`0.35` with
`agent_final = 8.0` and `emotion_face_score = 6.0` the total is exactly
`7.3`. -/
theorem compute_total_patched_spec (emo : ℚ) (a : AgentScoresV ℚ) (w1 w2 : ℚ)
    (haf0 : 0 ≤ a.agent_final_score) (haf10 : a.agent_final_score ≤ 10) :
    (compute_total_patched emo (some a) w1 w2).total_score
        = some (round2 (clamp10 (a.agent_final_score * w1 + emo * w2)))
    ∧ (compute_total_patched emo (some a) w1 w2).agent_final_score
        = some (round2 a.agent_final_score)
    ∧ (∀ e : ℚ, compute_total_patched e (none : Option (AgentScoresV ℚ)) w1 w2
        = ⟨round2 e, none, none, none, none⟩)
    ∧ (compute_total_patched (6 : ℚ) (some ⟨7, 8, 8⟩) (65 / 100) (35 / 100)).total_score
        = some (73 / 10) := by
  refine ⟨?_, ?_, fun e => rfl, ?_⟩
  · show some (round2 (clamp10 (clamp10 a.agent_final_score * w1 + emo * w2))) = _
    rw [clamp10_of_mem haf0 haf10]
  · show some (round2 (clamp10 a.agent_final_score)) = _
    rw [clamp10_of_mem haf0 haf10]
  · show some (round2 (clamp10 (clamp10 (8 : ℚ) * (65 / 100) + 6 * (35 / 100)))) = _
    rw [show clamp10 (8 : ℚ) = 8 from clamp10_of_mem (by norm_num) (by norm_num),
      show (8 : ℚ) * (65 / 100) + 6 * (35 / 100) = ((730 : ℤ) : ℚ) / 100 by norm_num,
      show clamp10 (((730 : ℤ) : ℚ) / 100) = ((730 : ℤ) : ℚ) / 100 from
        clamp10_of_mem (by norm_num) (by norm_num),
      round2_intCast_div_100]
    norm_num

theorem compute_total_patched_spec_witness :
    (compute_total_patched (6 : ℚ) (some ⟨7, 8, 8⟩) (65 / 100) (35 / 100)).total_score
      = some (73 / 10) :=
  (compute_total_patched_spec 6 ⟨7, 8, 8⟩ (65 / 100) (35 / 100)
    (by norm_num) (by norm_num)).2.2.2

/-! ### `EvaluationService.evaluate` and the unbound `ds_detail` local -/

/-- The Python exception relevant to `evaluate`'s control flow. -/
inductive PyExn where
  | unboundLocalError (name : PyStr)
deriving DecidableEq, Repr

/-- The fields of `evaluate`'s report that the claims talk about. -/
structure EvalReport where
  emotion_score : ℝ
  agent_error : Option PyStr
  overall : TotalResult ℝ

/-- Model of the body of `EvaluationService.evaluate` from the agent-scoring
step on.  The already-read emotion events, the missing-environment check and
the judgment call's outcome are inputs; `nValid` stands for the valid-answer
count.  `ds_detail` is assigned only inside the `if agent_scores is not
None:` block in the source, yet is read unconditionally right after it, so
when agent scoring was skipped or failed the read raises
`UnboundLocalError`, modelled by the `.error` branch. -/
noncomputable def evaluate (emoEvents : List EmotionEvent) (missing : List PyStr)
    (judge : Except PyStr (AgentScoresV ℝ)) (nValid : ℕ)
    (w_knowledge w_attitude w_agent_final w_emotion : ℝ) : Except PyExn EvalReport :=
  let emotion_face_score : ℝ := ((score_emotion_face_base10 emoEvents : ℚ) : ℝ)
  let agentStep : Option (AgentScoresV ℝ) × Option PyStr :=
    if missing ≠ [] then (none, some (pys "Missing Azure envs"))
    else
      match judge with
      | .error e => (none, some e)
      | .ok sc => (some sc, none)
  match agentStep.1 with
  | some sc =>
    .ok ⟨emotion_face_score, agentStep.2,
      compute_total_patched emotion_face_score
        (some ⟨(apply_data_sufficiency sc.knowledge_score sc.attitude_score
            w_knowledge w_attitude nValid).1,
          (apply_data_sufficiency sc.knowledge_score sc.attitude_score
            w_knowledge w_attitude nValid).2.1,
          (apply_data_sufficiency sc.knowledge_score sc.attitude_score
            w_knowledge w_attitude nValid).2.2⟩)
        w_agent_final w_emotion⟩
  | none => .error (PyExn.unboundLocalError (pys "ds_detail"))

/-- C1 is falsified by the code: whenever the judgment step is skipped
(missing credentials) or fails (the call raised), `evaluate` does not return
a report carrying the error string and the affect-only score — it raises
`UnboundLocalError` on `ds_detail`, which is only assigned when agent
scoring succeeds. -/
theorem evaluate_unbound_ds_detail (emoEvents : List EmotionEvent)
    (missing : List PyStr) (judge : Except PyStr (AgentScoresV ℝ)) (nValid : ℕ)
    (w_knowledge w_attitude w_agent_final w_emotion : ℝ)
    (h : missing ≠ [] ∨ ∃ e, judge = .error e) :
    evaluate emoEvents missing judge nValid
        w_knowledge w_attitude w_agent_final w_emotion
      = .error (PyExn.unboundLocalError (pys "ds_detail")) := by
  unfold evaluate
  rcases h with hm | ⟨e, he⟩
  · rw [if_pos hm]
  · subst he
    by_cases hm : missing ≠ []
    · rw [if_pos hm]
    · rw [if_neg hm]

theorem evaluate_unbound_ds_detail_witness :
    evaluate [] [pys "AZURE_OPENAI_API_KEY"]
        (Except.ok (⟨5, 5, 5⟩ : AgentScoresV ℝ)) 0 (7 / 10) (3 / 10) (65 / 100) (35 / 100)
      = Except.error (PyExn.unboundLocalError (pys "ds_detail")) :=
  evaluate_unbound_ds_detail [] [pys "AZURE_OPENAI_API_KEY"]
    (Except.ok (⟨5, 5, 5⟩ : AgentScoresV ℝ)) 0 (7 / 10) (3 / 10) (65 / 100) (35 / 100)
    (Or.inl (by simp))

/-! ### `EmotionService` lifecycle -/

/-- The lifecycle-relevant state of `EmotionService`: the active session set
(as an insertion-ordered list), the two worker-thread liveness flags, the two
stop events, and counters of actual thread starts.  The model is sequential:
a worker signalled to stop has exited by the next call (the camera `join`
and the log loop's stop-flag check). -/
structure EmotionServiceState where
  logging_sessions : List PyStr
  cam_alive : Bool
  stop_cam : Bool
  log_alive : Bool
  stop_log : Bool
  cam_starts : ℕ
  log_starts : ℕ
deriving DecidableEq, Repr

/-- `self._logging_sessions.add(session_id)`. -/
def addSession (l : List PyStr) (sid : PyStr) : List PyStr :=
  if sid ∈ l then l else l ++ [sid]

/-- `self._logging_sessions.discard(session_id)`. -/
def discardSession (l : List PyStr) (sid : PyStr) : List PyStr :=
  l.filter (fun x => !(x == sid))

/-- Model of `start_camera`: a no-op when the camera thread is alive,
otherwise clear the stop event and start the thread. -/
def start_camera (s : EmotionServiceState) : EmotionServiceState :=
  if s.cam_alive then s
  else { s with stop_cam := false, cam_alive := true, cam_starts := s.cam_starts + 1 }

/-- Model of `stop_camera`: set the stop event and join the thread. -/
def stop_camera (s : EmotionServiceState) : EmotionServiceState :=
  { s with stop_cam := true, cam_alive := false }

/-- Model of `start_logging`: add the session, ensure the camera runs, ensure
the log thread runs. -/
def start_logging (s : EmotionServiceState) (sid : PyStr) : EmotionServiceState :=
  let s1 := start_camera { s with logging_sessions := addSession s.logging_sessions sid }
  if s1.log_alive then s1
  else { s1 with stop_log := false, log_alive := true, log_starts := s1.log_starts + 1 }

/-- Model of `stop_logging`: discard the session; when none remain, signal
the log thread and stop the camera. -/
def stop_logging (s : EmotionServiceState) (sid : PyStr) : EmotionServiceState :=
  let s1 := { s with logging_sessions := discardSession s.logging_sessions sid }
  if s1.logging_sessions.length = 0 then
    stop_camera { s1 with stop_log := true, log_alive := false }
  else s1

/-- The freshly constructed service: no sessions, no workers. -/
def initState : EmotionServiceState := ⟨[], false, false, false, false, 0, 0⟩

/-- C9: starting the same session twice leaves one active entry and starts
each worker exactly once; stopping the sole session signals both workers;
with two sessions the workers survive the first stop and both are stopped
only by the last one. -/
theorem emotion_service_lifecycle :
    (let s := start_logging (start_logging initState (pys "s1")) (pys "s1")
     s.logging_sessions = [pys "s1"] ∧ s.cam_starts = 1 ∧ s.log_starts = 1
       ∧ s.cam_alive = true ∧ s.log_alive = true)
    ∧ (let s := stop_logging (start_logging initState (pys "s1")) (pys "s1")
       s.logging_sessions = [] ∧ s.stop_log = true ∧ s.stop_cam = true
         ∧ s.log_alive = false ∧ s.cam_alive = false)
    ∧ (let s := stop_logging
          (start_logging (start_logging initState (pys "s1")) (pys "s2")) (pys "s1")
       s.logging_sessions = [pys "s2"] ∧ s.cam_alive = true ∧ s.log_alive = true
         ∧ s.stop_log = false ∧ s.stop_cam = false
         ∧ (let u := stop_logging s (pys "s2")
            u.logging_sessions = [] ∧ u.cam_alive = false ∧ u.log_alive = false
              ∧ u.stop_cam = true ∧ u.stop_log = true)) := by
  decide

end InterviewEval
